import Mathlib

/-!
Verification of the mat2 document-sanitization engine (src/libmat2/web.py and
src/libmat2/office.py) against its natural-language specification.

The Python source is shallowly embedded: pure text transformations become Lean
functions on `String`/`List Char`, the streaming HTML sanitizer becomes a step
function over an explicit state record, XML trees become an inductive type with
a tag, an attribute association list and a child list, and code that can raise
an uncaught Python exception returns `Except`.

Layout: every definition comes first, all lemmas and claim theorems follow.
-/

/- ### Generic helpers -/

/-- Substring test on character lists: does `pat` occur contiguously in `l`?
Embeds Python's `pat in s`. -/
def subOcc (pat l : List Char) : Bool :=
  l.tails.any (fun t => pat.isPrefixOf t)

/-- Substring test on strings (Python `pat in s`). -/
def strOcc (pat s : String) : Bool :=
  subOcc pat.toList s.toList

/-- Python `s.lower()` (ASCII case folding, the only case the embedded
documents exercise). -/
def pyLower (s : String) : String :=
  String.mk (s.toList.map Char.toLower)

/-- Python `s.strip()`: drop leading and trailing whitespace. -/
def pyStrip (s : String) : String :=
  String.mk (((s.toList.dropWhile Char.isWhitespace).reverse.dropWhile
    Char.isWhitespace).reverse)

/-- Python `s.endswith(suffix)`. -/
def pyEndsWith (s suffix : String) : Bool :=
  suffix.toList.isSuffixOf s.toList

/-- First-binding lookup in an association list, as `dict.get` /
`Element.get` on a dict whose keys are unique. -/
def pyLookup (m : List (String × String)) (k : String) : Option String :=
  match m with
  | [] => none
  | (k', v) :: rest => if k' == k then some v else pyLookup rest k

/-- Lookup in an association list built by a Python dict comprehension:
on duplicate keys the **last** binding wins. -/
def pyGetLast (m : List (String × String)) (k : String) : Option String :=
  m.foldl (fun acc kv => if kv.1 == k then some kv.2 else acc) none

/-- Python `dict[k] = v`: overwrite in place if the key exists
(keeping insertion order), otherwise append. -/
def dictInsert (m : List (String × String)) (k v : String) : List (String × String) :=
  if m.any (fun kv => kv.1 == k) then
    m.map (fun kv => if kv.1 == k then (k, v) else kv)
  else m ++ [(k, v)]

/- ### CSSParser (src/libmat2/web.py, class CSSParser)

`remove_all` runs `re.sub(r'/\*.*?\*/', '', text, 0, re.MULTILINE | re.DOTALL)`.
The regex engine scans left to right; at the first `/*` it takes the shortest
span ending in `*/` (non-greedy, `.` matching newlines), deletes it, and
resumes scanning after the deleted span.  `dropCloseCss l` returns what follows
the first `*/` in `l` (if any); `cssSub` is the whole substitution. -/

/-- Skip to just after the first `*/` occurrence, if any. -/
def dropCloseCss : List Char → Option (List Char)
  | [] => none
  | '*' :: '/' :: rest => some rest
  | _ :: rest => dropCloseCss rest

/-- The scanning loop of `re.sub(r'/\*.*?\*/', '', s)`.  The `fuel`
argument only makes the recursion structural; by `dropCloseCss_length`
every recursive call shrinks the character list, so `fuel = l.length`
never runs out (the `0, l => l` line is unreachable then). -/
def cssGo : Nat → List Char → List Char
  | _, [] => []
  | fuel + 1, '/' :: '*' :: rest =>
    match dropCloseCss rest with
    | some rest' => cssGo fuel rest'
    | none => '/' :: '*' :: rest
  | fuel + 1, c :: rest => c :: cssGo fuel rest
  | 0, l => l

/-- The non-greedy global substitution `re.sub(r'/\*.*?\*/', '', s)`. -/
def cssSub (l : List Char) : List Char :=
  cssGo l.length l

/-- `CSSParser.remove_all`: strips every `/* ... */` span from the file text. -/
def cssRemoveAll (s : String) : String :=
  String.mk (cssSub s.toList)

/-- Is there any `/* ... */` match left in `l`?  (A `/*` opener followed,
anywhere later, by a `*/` closer.) -/
def cssHasComment : List Char → Bool
  | [] => false
  | '/' :: '*' :: rest => (dropCloseCss rest).isSome || cssHasComment rest
  | _ :: rest => cssHasComment rest

/- ### XML element trees

`xml.etree.ElementTree` elements: a tag in Clark notation (the namespace URI
between braces, then the local name), an attribute association list (dict with
unique keys, insertion-ordered), and a list of children. -/

inductive Elem where
  | mk (tag : String) (attrib : List (String × String)) (children : List Elem)

def Elem.tag : Elem → String
  | .mk t _ _ => t

def Elem.attrib : Elem → List (String × String)
  | .mk _ a _ => a

def Elem.children : Elem → List Elem
  | .mk _ _ cs => cs

/-- `Element.get(k)`: first binding of `k` in the attribute dict. -/
def Elem.get (e : Elem) (k : String) : Option String :=
  pyLookup e.attrib k

mutual
/-- All proper descendants of an element in document (pre-)order: exactly what
`tree.iterfind('.//')` / `element.iter()` yields below the context node. -/
def descendants : Elem → List Elem
  | .mk _ _ cs => descList cs

def descList : List Elem → List Elem
  | [] => []
  | c :: rest => (c :: descendants c) ++ descList rest
end

mutual
/-- Structural equality of elements (used where Python compares list members;
Python's `list.remove` actually compares by object identity, which structural
equality refines faithfully whenever the compared element occurs at most once,
the only regime the theorems below exercise). -/
def elemEq : Elem → Elem → Bool
  | .mk t1 a1 c1, .mk t2 a2 c2 => t1 == t2 && a1 == a2 && elemEqList c1 c2

def elemEqList : List Elem → List Elem → Bool
  | [], [] => true
  | x :: xs, y :: ys => elemEq x y && elemEqList xs ys
  | _, _ => false
end

/-- `list.remove(x)`: drop the first matching member. -/
def eraseFirstE (x : Elem) : List Elem → List Elem
  | [] => []
  | c :: rest => if elemEq c x then rest else c :: eraseFirstE x rest

/- ### Attribute-order canonicalizer (src/libmat2/office.py, _sort_xml_attributes)

`for c in tree.getroot(): c[:] = sorted(c, key=lambda child: (child.tag,
child.get('desc')))` — each *direct child* of the root gets its own children
stably sorted by the key pair; sorting can raise an uncaught `TypeError`
when a tuple comparison reaches `None` versus `str`.
`keyLt` embeds Python's `<` on such key tuples, `.error ()` standing for the
`TypeError`.  `sortE` is a stable insertion sort in the `Except` monad: like
Python's stable sort it yields the same ordering whenever every comparison it
makes is defined, and on two-element lists it performs exactly the one
comparison Python performs. -/

/-- Python `str < str` on character lists: code-point lexicographic order,
a strict prefix comparing below its extensions. -/
def charListLt : List Char → List Char → Bool
  | _, [] => false
  | [], _ :: _ => true
  | a :: as, b :: bs =>
    if a.toNat < b.toNat then true
    else if b.toNat < a.toNat then false
    else charListLt as bs

/-- Python `a < b` on strings. -/
def pyStrLt (a b : String) : Bool :=
  charListLt a.toList b.toList

def keyLt : String × Option String → String × Option String → Except Unit Bool
  | (t1, d1), (t2, d2) =>
    if t1 = t2 then
      match d1, d2 with
      | none, none => .ok false
      | some a, some b => .ok (pyStrLt a b)
      | _, _ => .error ()
    else .ok (pyStrLt t1 t2)

/-- The sort key: `(child.tag, child.get('desc'))`. -/
def childKey (c : Elem) : String × Option String :=
  (c.tag, c.get "desc")

/-- Comparison of two elements by their keys, Python's `lt` test. -/
def childLt (a b : Elem) : Except Unit Bool :=
  keyLt (childKey a) (childKey b)

/-- Stable insertion: place `x` before the first `y` that is not
strictly smaller than `x`. -/
def insertE (x : Elem) : List Elem → Except Unit (List Elem)
  | [] => .ok [x]
  | y :: ys =>
    match childLt y x with
    | .error e => .error e
    | .ok true =>
      match insertE x ys with
      | .error e => .error e
      | .ok r => .ok (y :: r)
    | .ok false => .ok (x :: y :: ys)

/-- Stable sort in the `Except` monad (error = Python `TypeError`). -/
def sortE : List Elem → Except Unit (List Elem)
  | [] => .ok []
  | x :: xs =>
    match sortE xs with
    | .error e => .error e
    | .ok r => insertE x r

/-- `c[:] = sorted(c, key=...)` applied to each element of a list in turn. -/
def sortEach : List Elem → Except Unit (List Elem)
  | [] => .ok []
  | c :: rest =>
    match sortE c.children with
    | .error e => .error e
    | .ok s =>
      match sortEach rest with
      | .error e => .error e
      | .ok rs => .ok (Elem.mk c.tag c.attrib s :: rs)

/-- `_sort_xml_attributes` on the parsed tree: sort the children of each
direct child of the root.  The root's own child order and every deeper
level are left untouched. -/
def sortXmlAttributes (root : Elem) : Except Unit Elem :=
  match sortEach root.children with
  | .error e => .error e
  | .ok cs => .ok (Elem.mk root.tag root.attrib cs)

/-- The final `tree.write(full_path, xml_declaration=True)`: the rewritten
file carries an XML declaration and the transformed tree. -/
structure XmlOut where
  xmlDecl : Bool
  root : Elem

/-- The whole `_sort_xml_attributes`, ending in the declaration-bearing write. -/
def sortAndWrite (root : Elem) : Except Unit XmlOut :=
  match sortXmlAttributes root with
  | .error e => .error e
  | .ok t => .ok ⟨true, t⟩

/- ### MSOfficeParser.__remove_rsid (src/libmat2/office.py)

After `_parse_xml` succeeds the method takes the namespace map and the tree.
If the `w` namespace is absent it reports success without touching the file.
Otherwise it walks `tree.iterfind('.//')` — every proper descendant of the
root, the root itself excluded — collecting elements whose
`tag.strip().lower()` contains `'}rsid'` (two-phase: collect, then remove via
the parent map) and deleting in place every attribute whose lowered key
contains `'}rsid'`, then rewrites the file. -/

/-- Tag test: `'}rsid' in item.tag.strip().lower()`. -/
def rsidTagHit (t : String) : Bool :=
  strOcc "\x7drsid" (pyLower (pyStrip t))

/-- Attribute-key test: `'}rsid' in key.lower()`. -/
def rsidAttrHit (k : String) : Bool :=
  strOcc "\x7drsid" (pyLower k)

mutual
/-- Attribute cleaning and child filtering below one (kept) element. -/
def rsidCleanElem : Elem → Elem
  | .mk t a cs => .mk t (a.filter (fun kv => !rsidAttrHit kv.1)) (rsidCleanList cs)

/-- Net effect of the collect-then-remove pass on a child list. -/
def rsidCleanList : List Elem → List Elem
  | [] => []
  | c :: rest =>
    if rsidTagHit c.tag then rsidCleanList rest
    else rsidCleanElem c :: rsidCleanList rest
end

/-- `MSOfficeParser.__remove_rsid` on a successfully parsed member
(namespace map, tree).  Returns the reported boolean and the tree as left
on disk.  The root's own tag and attributes are never examined, because
`iterfind('.//')` yields only proper descendants. -/
def msRemoveRsid (ns : List (String × String)) (root : Elem) : Bool × Elem :=
  if (pyLookup ns "w").isNone then (true, root)
  else (true, .mk root.tag root.attrib (rsidCleanList root.children))

/- ### LibreOfficeParser.__remove_revisions (src/libmat2/office.py)

For each `office:text` descendant of the root (`.//office:text`), the code
iterates the snapshot of its `.//text:tracked-changes` descendants and calls
`text.remove(changes)` on each — which raises an uncaught `ValueError` when
the found block is not a *direct* child of the `office:text` element.
If the `office` namespace is absent the method returns success untouched;
resolving the inner path raises when `text` is missing from the namespace
map, which happens as soon as one `office:text` element is found. -/

def otElemName (ouri : String) : String :=
  "\x7b" ++ ouri ++ "\x7dtext"

def tcElemName (turi : String) : String :=
  "\x7b" ++ turi ++ "\x7dtracked-changes"

/-- `text.remove(changes)` on a liveness-masked child list: mark the first
still-alive matching child as removed, so later removals see the shrunken
list while positions stay relatable to the original children. -/
def eraseFirstMask (x : Elem) : List (Elem × Bool) → List (Elem × Bool)
  | [] => []
  | (c, alive) :: rest =>
    if alive && elemEq c x then (c, false) :: rest
    else (c, alive) :: eraseFirstMask x rest

/-- Run `text.remove(changes)` for each found block in document order;
`.error ()` is the uncaught `ValueError` when the block is not among the
(remaining) direct children. -/
def removeEachTC : List (Elem × Bool) → List Elem → Except Unit (List (Elem × Bool))
  | cur, [] => .ok cur
  | cur, d :: ds =>
    if cur.any (fun p => p.2 && elemEq p.1 d) then removeEachTC (eraseFirstMask d cur) ds
    else .error ()

/-- Process one `office:text` element: compute which direct children survive.
`none` for the tracked-changes tag means the `text` namespace could not be
resolved, which raises (uncaught) as soon as the inner path is built. -/
def processOT (tc? : Option String) (e : Elem) : Except Unit (List Bool) :=
  match tc? with
  | none => .error ()
  | some tc =>
    match removeEachTC (e.children.map (fun c => (c, true)))
        ((descendants e).filter (fun d => d.tag == tc)) with
    | .error u => .error u
    | .ok cur => .ok (cur.map (fun p => p.2))

mutual
/-- Pre-order traversal of `.//office:text`: if this element is an
`office:text`, remove its tracked-changes blocks, then continue below the
surviving children. -/
def remRevElem (ot : String) (tc? : Option String) : Elem → Except Unit Elem
  | .mk t a cs =>
    match (if t == ot then processOT tc? (.mk t a cs) else .ok (cs.map (fun _ => true))) with
    | .error e => .error e
    | .ok keep =>
      match remRevList ot tc? cs keep with
      | .error e => .error e
      | .ok cs2 => .ok (.mk t a cs2)

/-- Traverse a child list under its survival mask. -/
def remRevList (ot : String) (tc? : Option String) : List Elem → List Bool → Except Unit (List Elem)
  | [], _ => .ok []
  | c :: rest, keep =>
    if keep.headD true then
      match remRevElem ot tc? c with
      | .error e => .error e
      | .ok c2 =>
        match remRevList ot tc? rest keep.tail with
        | .error e => .error e
        | .ok rs => .ok (c2 :: rs)
    else remRevList ot tc? rest keep.tail
end

/-- `LibreOfficeParser.__remove_revisions` on a successfully parsed
`content.xml` (namespace map, tree): the tree as left on disk, or the
uncaught exception.  The root itself is never treated as `office:text`
(`.//` yields proper descendants only). -/
def libreRemoveRevisions (ns : List (String × String)) (root : Elem) : Except Unit Elem :=
  match pyLookup ns "office" with
  | none => .ok root
  | some ouri =>
    match remRevList (otElemName ouri) ((pyLookup ns "text").map tcElemName)
        root.children (root.children.map (fun _ => true)) with
    | .error e => .error e
    | .ok cs => .ok (.mk root.tag root.attrib cs)

/- ### MSOfficeParser._specific_cleanup (src/libmat2/office.py)

A member file is either well-formed XML — a namespace map plus a tree, the
shape `_parse_xml` returns, and the only shape `tree.write` produces — or not
(`bad`), in which case every parse attempt raises `ET.ParseError`. -/

inductive MFile where
  | bad
  | good (ns : List (String × String)) (root : Elem)

/-- `__remove_content_type_members`: drop `<Override>` children of the root
whose `PartName` (leading `/` stripped) is scheduled for omission.
`removedFnames` abstracts the archive listing filtered through the
`files_to_omit` patterns (the zip enumeration is outside the XML logic).
`.error ()` covers the uncaught `KeyError` on `namespace['']` or on a missing
`PartName` attribute; a parse failure or a namespace count other than one
reports `False` with the file untouched. -/
def removeContentTypeMembers (removedFnames : List String) (f : MFile) :
    Except Unit (Bool × MFile) :=
  match f with
  | .bad => .ok (false, .bad)
  | .good ns root =>
    if ns.length ≠ 1 then .ok (false, .good ns root)
    else
      match pyLookup ns "" with
      | none => .error ()
      | some uri =>
        if root.children.any (fun c =>
            c.tag == ("\x7b" ++ uri ++ "\x7dOverride") &&
            (pyLookup c.attrib "PartName").isNone) then
          .error ()
        else
          .ok (true, .good ns (.mk root.tag root.attrib (root.children.filter (fun c =>
            !(c.tag == ("\x7b" ++ uri ++ "\x7dOverride") &&
              removedFnames.contains (((pyLookup c.attrib "PartName").getD "").drop 1)))))) 

mutual
/-- Remove every `w:del` subtree below an element (the root's own tag is
never matched, `.//w:del` being a proper-descendant search). -/
def delCleanElem (delTag : String) : Elem → Elem
  | .mk t a cs => .mk t a (delCleanList delTag cs)

def delCleanList (delTag : String) : List Elem → List Elem
  | [] => []
  | c :: rest =>
    if c.tag == delTag then delCleanList delTag rest
    else delCleanElem delTag c :: delCleanList delTag rest
end

mutual
/-- Replace every `w:ins` wrapper by its children (the "accept insertion"
step).  The source locates the insertion position by re-scanning the global
pre-order enumeration; splicing the children in place of the wrapper models
the intended net effect (the claims below depend only on the
success/failure and file-state behavior of this step, not on fine splice
positions). -/
def insCleanElem (insTag : String) : Elem → Elem
  | .mk t a cs => .mk t a (insCleanList insTag cs)

def insCleanList (insTag : String) : List Elem → List Elem
  | [] => []
  | c :: rest =>
    if c.tag == insTag then (insCleanElem insTag c).children ++ insCleanList insTag rest
    else insCleanElem insTag c :: insCleanList insTag rest
end

/-- `MSOfficeParser.__remove_revisions` at the member-file level: parse
failure reports `False` leaving the file as read; an unresolvable `w`
namespace raises when the `.//w:del` path is built; if neither `w:del` nor
`w:ins` occurs the method succeeds without rewriting; otherwise deletions
are dropped, insertions accepted, and the file rewritten. -/
def msRemoveRevisions (f : MFile) : Except Unit (Bool × MFile) :=
  match f with
  | .bad => .ok (false, .bad)
  | .good ns root =>
    match pyLookup ns "w" with
    | none => .error ()
    | some wuri =>
      if !(descendants root).any (fun d => d.tag == ("\x7b" ++ wuri ++ "\x7ddel")) &&
         !(descendants root).any (fun d => d.tag == ("\x7b" ++ wuri ++ "\x7dins")) then
        .ok (true, .good ns root)
      else
        .ok (true, .good ns (insCleanElem ("\x7b" ++ wuri ++ "\x7dins")
          (delCleanElem ("\x7b" ++ wuri ++ "\x7ddel") root)))

/-- `__remove_rsid` at the member-file level: parse failure reports `False`
with the file as read; otherwise the parsed-tree behavior of `msRemoveRsid`
(whose `w`-absent branch also leaves the file unwritten). -/
def msRemoveRsidFile (f : MFile) : Bool × MFile :=
  match f with
  | .bad => (false, .bad)
  | .good ns root =>
    ((msRemoveRsid ns root).1, .good ns (msRemoveRsid ns root).2)

inductive SortErr where
  | parseErr
  | typeErr

/-- `_sort_xml_attributes` at the member-file level: `ET.parse` raises
`ParseError` on a malformed file; the sort itself can raise `TypeError`. -/
def sortXmlFile : MFile → Except SortErr MFile
  | .bad => .error .parseErr
  | .good ns root =>
    match sortXmlAttributes root with
    | .error _ => .error .typeErr
    | .ok t => .ok (.good ns t)

mutual
/-- `re.sub(b'mc:Ignorable="[^"]*"', b'', text, 1)` on the serialized bytes:
remove the first `mc:Ignorable` attribute in document (serialization) order,
the root's own attributes coming first.  Returns whether a strip happened
and the resulting element. -/
def mcStripElem : Elem → Bool × Elem
  | .mk t a cs =>
    if a.any (fun kv => kv.1 == "mc:Ignorable") then
      (true, .mk t (a.filter (fun kv => !(kv.1 == "mc:Ignorable"))) cs)
    else
      match mcStripList cs with
      | (b, cs2) => (b, .mk t a cs2)

def mcStripList : List Elem → Bool × List Elem
  | [] => (false, [])
  | c :: rest =>
    match mcStripElem c with
    | (true, c2) => (true, c2 :: rest)
    | (false, c2) =>
      match mcStripList rest with
      | (b, rest2) => (b, c2 :: rest2)
end

def mcIgnorableStrip : MFile → MFile
  | .bad => .bad
  | .good ns root => .good ns (mcStripElem root).2

def extPropsURI : String :=
  "http://schemas.openxmlformats.org/officeDocument/2006/extended-properties"

def corePropsURI : String :=
  "http://schemas.openxmlformats.org/package/2006/metadata/core-properties"

/-- The constant minimal `docProps/app.xml` the cleaner writes over the
member: default namespace binding and an empty `Properties` root. -/
def appXmlWritten : MFile :=
  .good [("", extPropsURI)] (.mk ("\x7b" ++ extPropsURI ++ "\x7dProperties") [] [])

/-- The constant minimal `docProps/core.xml`. -/
def coreXmlWritten : MFile :=
  .good [("cp", corePropsURI)] (.mk ("\x7b" ++ corePropsURI ++ "\x7dcoreProperties") [] [])

/-- `MSOfficeParser._specific_cleanup` for one archive member: `isEmpty`
is `os.stat(full_path).st_size == 0`; the result is the reported boolean
together with the member's file as left on disk, or `.error ()` for an
uncaught exception escaping the hook. -/
def specificCleanup (removedFnames : List String) (fullPath : String)
    (isEmpty : Bool) (f : MFile) : Except Unit (Bool × MFile) :=
  if isEmpty then .ok (true, f)
  else if !pyEndsWith fullPath ".xml" then .ok (true, f)
  else
    match (if pyEndsWith fullPath "/[Content_Types].xml" then
             removeContentTypeMembers removedFnames f
           else if pyEndsWith fullPath "/word/document.xml" then
             msRemoveRevisions f
           else if pyEndsWith fullPath "/docProps/app.xml" then
             .ok (true, appXmlWritten)
           else if pyEndsWith fullPath "/docProps/core.xml" then
             .ok (true, coreXmlWritten)
           else .ok (true, f)) with
    | .error u => .error u
    | .ok (false, f1) => .ok (false, f1)
    | .ok (true, f1) =>
      match msRemoveRsidFile f1 with
      | (false, f2) => .ok (false, f2)
      | (true, f2) =>
        match sortXmlFile f2 with
        | .error .parseErr => .ok (false, f2)
        | .error .typeErr => .error ()
        | .ok f3 => .ok (true, mcIgnorableStrip f3)

/- ### Streaming markup sanitizer (src/libmat2/web.py, class _HTMLParser)

The stdlib `html.parser` tokenizes the file into events; `_HTMLParser`
overrides the handlers.  Events carry what the library hands each handler:
the lowercased tag name, and for opening/self-closing tags the raw source
text of the tag (`get_starttag_text()`).  `hstep` embeds one handler call;
`.error ()` is a raised `ValueError`.  The output buffer `self.__textrepr`
(a string built by appends) is kept as the list of appended pieces;
`renderOut` is the actual string. -/

/-- `previous_tag[1:-1].split(' ')[0]`: the tag name (with its original
case, attributes stripped) of a raw start-tag text. -/
def tagFromText (t : String) : String :=
  String.mk (((t.toList.drop 1).dropLast).takeWhile (fun c => c ≠ ' '))

/-- One character of `html.escape(data)` (default `quote=True`): the five
sequential `str.replace` passes agree with this single character map,
since no replacement text contains a character a later pass rewrites into
something new. -/
def escapeChar (c : Char) : List Char :=
  if c = '&' then "&amp;".toList
  else if c = '<' then "&lt;".toList
  else if c = '>' then "&gt;".toList
  else if c = '"' then "&quot;".toList
  else if c = '\x27' then "&#x27;".toList
  else [c]

/-- `html.escape(data)` with its default `quote=True`. -/
def htmlEscape (s : String) : String :=
  String.mk (s.toList.flatMap escapeChar)

/-- One event from the stdlib tokenizer, as delivered to the handlers. -/
inductive HEvent where
  | start (tag : String) (orig : String)
  | stop (tag : String)
  | text (dat : String)
  | startend (tag : String) (attrs : List (String × String)) (orig : String)

/-- One piece appended to `self.__textrepr`. -/
inductive OutTok where
  | startT (orig : String)
  | endT (name : String)
  | dataT (s : String)
  | selfT (tag : String)
  | rawT (orig : String)

def renderTok : OutTok → String
  | .startT o => o
  | .endT n => "</" ++ n ++ ">"
  | .dataT s => s
  | .selfT t => "<" ++ t ++ " />"
  | .rawT o => o

/-- The accumulated `self.__textrepr` string. -/
def renderOut (l : List OutTok) : String :=
  String.join (l.map renderTok)

/-- The two blacklist sets a parser is constructed with. -/
structure HCfg where
  requiredBlacklist : List String
  blacklist : List String

/-- `required_blacklisted_tags & blacklisted_tags` is non-empty. -/
def overlapB (cfg : HCfg) : Bool :=
  cfg.requiredBlacklist.any (fun t => cfg.blacklist.contains t)

/-- The mutable parser state: output pieces, metadata dict, validation
queue (most recently opened tag text first), and the two counters —
`Int`, as Python integers can in principle go negative. -/
structure HState where
  textrepr : List OutTok
  meta : List (String × String)
  validationQueue : List String
  inDangerousButRequired : Int
  inDangerous : Int

def initState : HState :=
  ⟨[], [], [], 0, 0⟩

/-- `_HTMLParser.__init__`: raises on overlapping blacklists. -/
def hparserInit (cfg : HCfg) : Except Unit HState :=
  if overlapB cfg then .error () else .ok initState

/-- One handler invocation. -/
def hstep (cfg : HCfg) (st : HState) : HEvent → Except Unit HState
  | .start tag orig =>
    let nReq := st.inDangerousButRequired +
      (if cfg.requiredBlacklist.contains tag then 1 else 0)
    let nDang := st.inDangerous + (if cfg.blacklist.contains tag then 1 else 0)
    .ok { st with
      validationQueue := orig :: st.validationQueue
      inDangerousButRequired := nReq
      inDangerous := nDang
      textrepr :=
        if nDang = 0 ∧ nReq ≤ 1 then st.textrepr ++ [.startT orig] else st.textrepr }
  | .stop tag =>
    match st.validationQueue with
    | [] => .error ()
    | prev :: rest =>
      if tag ≠ pyLower (tagFromText prev) then .error ()
      else
        .ok { st with
          validationQueue := rest
          textrepr :=
            if st.inDangerous = 0 ∧ st.inDangerousButRequired ≤ 1 then
              st.textrepr ++ [.endT (tagFromText prev)]
            else st.textrepr
          inDangerousButRequired :=
            if cfg.requiredBlacklist.contains tag then st.inDangerousButRequired - 1
            else st.inDangerousButRequired
          inDangerous :=
            if !cfg.requiredBlacklist.contains tag && cfg.blacklist.contains tag then
              st.inDangerous - 1
            else st.inDangerous }
  | .text dat =>
    if st.inDangerousButRequired = 0 ∧ st.inDangerous = 0 ∧ pyStrip dat ≠ "" then
      .ok { st with textrepr := st.textrepr ++ [.dataT (htmlEscape dat)] }
    else .ok st
  | .startend tag attrs orig =>
    if cfg.requiredBlacklist.contains tag || cfg.blacklist.contains tag then
      let m := dictInsert st.meta
        ((pyGetLast attrs "name").getD "harmful metadata")
        ((pyGetLast attrs "content").getD "harmful data")
      if st.inDangerous ≠ 0 then .ok { st with meta := m }
      else if cfg.requiredBlacklist.contains tag then
        .ok { st with meta := m, textrepr := st.textrepr ++ [.selfT tag] }
      else .ok { st with meta := m }
    else
      if st.inDangerousButRequired = 0 ∧ st.inDangerous = 0 then
        .ok { st with textrepr := st.textrepr ++ [.rawT orig] }
      else .ok st

/-- `feed` over a list of events. -/
def feedEvents (cfg : HCfg) : HState → List HEvent → Except Unit HState
  | st, [] => .ok st
  | st, e :: evs =>
    match hstep cfg st e with
    | .error u => .error u
    | .ok st2 => feedEvents cfg st2 evs

/-- Construct the parser and feed it. -/
def runParse (cfg : HCfg) (evs : List HEvent) : Except Unit HState :=
  match hparserInit cfg with
  | .error u => .error u
  | .ok st0 => feedEvents cfg st0 evs

/-- `_HTMLParser.remove_all`: fails on a non-empty validation queue,
otherwise the written output text. -/
def removeAllHtml (st : HState) : Except Unit String :=
  if st.validationQueue.isEmpty then .ok (renderOut st.textrepr) else .error ()

/-- `_HTMLParser.get_meta`: fails on a non-empty validation queue. -/
def getMetaHtml (st : HState) : Except Unit (List (String × String)) :=
  if st.validationQueue.isEmpty then .ok st.meta else .error ()

/-- Feed, then `remove_all`. -/
def removeAllRun (cfg : HCfg) (evs : List HEvent) : Except Unit String :=
  match runParse cfg evs with
  | .error u => .error u
  | .ok st => removeAllHtml st

/-- Tag-balance checker over the produced pieces: data, placeholder and raw
self-closing pieces are neutral; each produced end piece must close the
most recent unclosed produced start piece (its name is exactly the one the
sanitizer synthesizes from the raw start-tag text). -/
def runNest : List OutTok → List String → Option (List String)
  | [], stk => some stk
  | .startT orig :: rest, stk => runNest rest (orig :: stk)
  | .endT name :: rest, stk =>
    match stk with
    | [] => none
    | top :: stk2 => if name == tagFromText top then runNest rest stk2 else none
  | .dataT _ :: rest, stk => runNest rest stk
  | .selfT _ :: rest, stk => runNest rest stk
  | .rawT _ :: rest, stk => runNest rest stk

/-- Every produced start tag has a matching produced end tag, in properly
nested order. -/
def wellNested (l : List OutTok) : Bool :=
  runNest l [] == some []

/-- Does the queue entry, reduced to its lowercased tag name, belong to a
blacklist? -/
def tagInList (bl : List String) (t : String) : Bool :=
  bl.contains (pyLower (tagFromText t))

/-- How many entries of the validation queue carry a tag from `bl`. -/
def countTags (bl : List String) (q : List String) : Nat :=
  (q.filter (fun t => tagInList bl t)).length

/-- The queue entries whose start tags were emitted: those pushed while no
blacklisted tag was open and at most one required-blacklisted tag
(including the entry itself) was open. -/
def emittedStack (cfg : HCfg) : List String → List String
  | [] => []
  | t :: rest =>
    if countTags cfg.blacklist (t :: rest) = 0 ∧
       countTags cfg.requiredBlacklist (t :: rest) ≤ 1 then
      t :: emittedStack cfg rest
    else emittedStack cfg rest

/-- Interface guarantee of the stdlib tokenizer: for start events the
lowercased name extracted from the raw tag text is the event's tag.
(When an input violates the corresponding relation between an end tag and
the raw text of its opener, feeding raises, so such runs are excluded by
the claims' no-structural-error hypothesis.) -/
def wfEvent : HEvent → Bool
  | .start tag orig => tag == pyLower (tagFromText orig)
  | _ => true

/-- The configuration of `HTMLParser` (mimetype text/html):
`tags_blacklist = {'meta'}`, `tags_required_blacklist = {'title'}`. -/
def htmlCfg : HCfg :=
  ⟨["title"], ["meta"]⟩

/- ### Predicates for the ODF revision-removal theorems -/

/-- The snapshot `.//text:tracked-changes` inside one element: its proper
descendants carrying the tag, in document order. -/
def tcOcc (tc : String) (e : Elem) : List Elem :=
  (descendants e).filter (fun d => d.tag == tc)

/-- Neither the element nor any descendant carries the tag. -/
def noTagB (tc : String) (e : Elem) : Bool :=
  !(e.tag == tc) && (descendants e).all (fun d => !(d.tag == tc))

/-- The sunny-day document shape for `__remove_revisions`: below (and at)
this element, every `office:text` element contains at most one
tracked-changes block, occurring as one of its direct children, and
tracked-changes blocks never occur outside an `office:text` parent. -/
def subtreeGoodB (ot tc : String) (e : Elem) : Bool :=
  (e :: descendants e).all (fun d =>
    if d.tag == ot then
      decide ((tcOcc tc d).length ≤ 1) &&
      (tcOcc tc d).all (fun x => d.children.any (fun c => elemEq c x))
    else d.children.all (fun c => !(c.tag == tc)))

/-- Feed, then `get_meta`. -/
def getMetaRun (cfg : HCfg) (evs : List HEvent) :
    Except Unit (List (String × String)) :=
  match runParse cfg evs with
  | .error u => .error u
  | .ok st => getMetaHtml st

/- ### Lemmas and claim theorems -/

theorem dropCloseCss_length : ∀ l r, dropCloseCss l = some r → r.length ≤ l.length := by
  intro l
  induction l using dropCloseCss.induct with
  | case1 => intro r h; simp [dropCloseCss] at h
  | case2 rest =>
    intro r h
    simp only [dropCloseCss] at h
    injection h with h; subst h; simp; omega
  | case3 c rest hne ih =>
    intro r h
    rw [dropCloseCss.eq_def] at h
    split at h
    · exact absurd h (by simp)
    · rename_i rest2 heq2
      injection heq2 with h1 h2
      exact (hne rest2 h1 h2).elim
    · rename_i heq2
      injection heq2 with h1 h2
      subst h2
      have := ih r h
      simp; omega

/-- On comment-free text the scanning loop is the identity, whatever the fuel. -/
theorem cssGo_id_of_no_comment : ∀ fuel l, cssHasComment l = false → cssGo fuel l = l := by
  intro fuel l
  induction fuel, l using cssGo.induct with
  | case1 => intro _; simp [cssGo]
  | case2 fuel rest rest' hsome ih =>
    intro hno
    simp [cssHasComment, hsome] at hno
  | case3 fuel rest hnone =>
    intro _
    simp [cssGo, hnone]
  | case4 fuel c rest hne ih =>
    intro hno
    have hrest : cssHasComment rest = false := by
      rw [cssHasComment.eq_def] at hno
      split at hno
      · rename_i heq2
        exact absurd heq2 (by simp)
      · rename_i rest2 heq2
        injection heq2 with h1 h2
        exact (hne rest2 h1 h2).elim
      · rename_i heq2
        injection heq2 with h1 h2
        subst h2
        exact hno
    simp only [cssGo]
    rw [ih hrest]
  | case5 l =>
    intro _; simp [cssGo]

/-- On comment-free text the substitution is the identity. -/
theorem cssSub_id_of_no_comment (l : List Char) (h : cssHasComment l = false) :
    cssSub l = l :=
  cssGo_id_of_no_comment l.length l h

/-- C8, counterexample.  The claim states `CSSParser.remove_all` is idempotent
for **every** input.  It is not: on `"//*c*/*foo*/*c*//"` the first pass
removes the two comments `/*c*/` and, by splicing their surroundings, leaves
the text `"/*foo*/"`, which itself is a comment; a second pass removes it,
so cleaning its own output changes it again. -/
theorem c8_counterexample :
    cssRemoveAll (cssRemoveAll "//*c*/*foo*/*c*//") ≠ cssRemoveAll "//*c*/*foo*/*c*//" := by
  decide

/-- C8, amended: `CSSParser.remove_all` is idempotent on every input whose
cleaned output contains no remaining `/* ... */` span (removal can splice
the delimiters of a new comment out of the surrounding text, in which case
a second application removes more). -/
theorem c8_amended (s : String)
    (h : cssHasComment (cssRemoveAll s).toList = false) :
    cssRemoveAll (cssRemoveAll s) = cssRemoveAll s := by
  show String.mk (cssSub ((cssRemoveAll s).toList)) = cssRemoveAll s
  rw [cssSub_id_of_no_comment _ h]
  rfl

/-- Witness for `c8_amended` at the input `"/*a: b*/ body"`. -/
theorem c8_witness :
    cssHasComment (cssRemoveAll "/*a: b*/ body").toList = false ∧
    cssRemoveAll (cssRemoveAll "/*a: b*/ body") = cssRemoveAll "/*a: b*/ body" :=
  ⟨by decide, c8_amended "/*a: b*/ body" (by decide)⟩

/-- Code-point order: asymmetry. -/
theorem clt_asym : ∀ a b, charListLt a b = true → charListLt b a = false := by
  intro a
  induction a with
  | nil =>
    intro b h
    cases b with
    | nil => simp [charListLt] at h
    | cons c cs => simp [charListLt]
  | cons x xs ih =>
    intro b h
    cases b with
    | nil => simp [charListLt] at h
    | cons y ys =>
      simp only [charListLt] at h ⊢
      by_cases h1 : x.toNat < y.toNat
      · rw [if_neg (by omega), if_pos h1]
      · rw [if_neg h1] at h
        by_cases h2 : y.toNat < x.toNat
        · rw [if_pos h2] at h
          exact absurd h (by simp)
        · rw [if_neg h2] at h
          rw [if_neg h2, if_neg h1]
          exact ih ys h

/-- Code-point order: two lists neither of which is below the other are
equal. -/
theorem clt_total : ∀ a b, charListLt a b = false → charListLt b a = false → a = b := by
  intro a
  induction a with
  | nil =>
    intro b h1 h2
    cases b with
    | nil => rfl
    | cons c cs => simp [charListLt] at h1
  | cons x xs ih =>
    intro b h1 h2
    cases b with
    | nil => simp [charListLt] at h2
    | cons y ys =>
      simp only [charListLt] at h1 h2
      by_cases hx : x.toNat < y.toNat
      · rw [if_pos hx] at h1
        exact absurd h1 (by simp)
      · rw [if_neg hx] at h1
        by_cases hy : y.toNat < x.toNat
        · rw [if_pos hy] at h2
          exact absurd h2 (by simp)
        · rw [if_neg hy] at h1
          rw [if_neg hy, if_neg hx] at h2
          have hnat : x.toNat = y.toNat := by omega
          have hxy : x = y := Char.eq_of_val_eq (UInt32.toNat.inj hnat)
          rw [hxy, ih ys h1 h2]

/-- Code-point order: transitivity. -/
theorem clt_trans : ∀ a b c, charListLt a b = true → charListLt b c = true →
    charListLt a c = true := by
  intro a
  induction a with
  | nil =>
    intro b c h1 h2
    cases b with
    | nil => simp [charListLt] at h1
    | cons y ys =>
      cases c with
      | nil => simp [charListLt] at h2
      | cons z zs => simp [charListLt]
  | cons x xs ih =>
    intro b c h1 h2
    cases b with
    | nil => simp [charListLt] at h1
    | cons y ys =>
      cases c with
      | nil => simp [charListLt] at h2
      | cons z zs =>
        simp only [charListLt] at h1 h2 ⊢
        by_cases hxy : x.toNat < y.toNat
        · by_cases hyz : y.toNat < z.toNat
          · rw [if_pos (by omega)]
          · rw [if_neg hyz] at h2
            by_cases hzy : z.toNat < y.toNat
            · rw [if_pos hzy] at h2
              exact absurd h2 (by simp)
            · rw [if_pos (by omega)]
        · rw [if_neg hxy] at h1
          by_cases hyx : y.toNat < x.toNat
          · rw [if_pos hyx] at h1
            exact absurd h1 (by simp)
          · rw [if_neg hyx] at h1
            by_cases hyz : y.toNat < z.toNat
            · rw [if_pos (by omega)]
            · rw [if_neg hyz] at h2
              by_cases hzy : z.toNat < y.toNat
              · rw [if_pos hzy] at h2
                exact absurd h2 (by simp)
              · rw [if_neg hzy] at h2
                rw [if_neg (by omega), if_neg (by omega)]
                exact ih ys zs h1 h2

theorem pyStrLt_asym {a b : String} (h : pyStrLt a b = true) : pyStrLt b a = false :=
  clt_asym _ _ h

theorem pyStrLt_total {a b : String} (h1 : pyStrLt a b = false)
    (h2 : pyStrLt b a = false) : a = b :=
  String.ext (clt_total _ _ h1 h2)

theorem pyStrLt_trans {a b c : String} (h1 : pyStrLt a b = true)
    (h2 : pyStrLt b c = true) : pyStrLt a c = true :=
  clt_trans _ _ _ h1 h2

theorem pyStrLt_false_cases {a b : String} (h : pyStrLt b a = false) :
    b = a ∨ pyStrLt a b = true := by
  by_cases hab : pyStrLt a b = true
  · exact Or.inr hab
  · exact Or.inl (pyStrLt_total h (by simpa using hab))

/-- If `k1 < k2` holds for two Python key tuples, `k2 < k1` evaluates to
`False` (and in particular raises no `TypeError`). -/
theorem keyLt_asym : ∀ k1 k2, keyLt k1 k2 = .ok true → keyLt k2 k1 = .ok false := by
  intro ⟨t1, d1⟩ ⟨t2, d2⟩ h
  simp only [keyLt] at h ⊢
  by_cases ht : t1 = t2
  · subst ht
    rw [if_pos rfl] at h
    rw [if_pos rfl]
    match d1, d2, h with
    | none, none, h => exact absurd h (by simp)
    | some a, some b, h =>
      simp only [Except.ok.injEq] at h
      simp only [Except.ok.injEq]
      exact pyStrLt_asym h
    | some a, none, h => exact absurd h (by simp)
    | none, some b, h => exact absurd h (by simp)
  · rw [if_neg ht] at h
    rw [if_neg (fun hh => ht hh.symm)]
    simp only [Except.ok.injEq] at h
    simp only [Except.ok.injEq]
    exact pyStrLt_asym h

/-- Local transitivity through a successful "not smaller" comparison: if
`ky < kx` evaluated to `False` and `kw < ky` did not evaluate to `True`,
then `kw < kx` cannot evaluate to `True` either. -/
theorem keyLt_chain : ∀ kx ky kw, keyLt ky kx = .ok false →
    keyLt kw ky ≠ .ok true → keyLt kw kx ≠ .ok true := by
  intro ⟨tx, dx⟩ ⟨ty, dy⟩ ⟨tw, dw⟩ h1 h2 h3
  simp only [keyLt] at h1 h2 h3
  by_cases hyx : ty = tx
  · subst hyx
    rw [if_pos rfl] at h1
    by_cases hwy : tw = ty
    · subst hwy
      rw [if_pos rfl] at h2 h3
      match dx, dy, dw, h1, h2, h3 with
      | some a, some b, some c, h1, h2, h3 =>
        simp only [Except.ok.injEq] at h1 h3
        rcases pyStrLt_false_cases h1 with heq | hab
        · exact h2 (by
            simp only [Except.ok.injEq]
            rw [heq]
            exact h3)
        · exact h2 (by
            simp only [Except.ok.injEq]
            exact pyStrLt_trans h3 hab)
      | some a, some b, none, h1, h2, h3 => simp at h3
      | some a, none, dw, h1, h2, h3 => simp at h1
      | none, some b, dw, h1, h2, h3 => simp at h1
      | none, none, some c, h1, h2, h3 => simp at h3
      | none, none, none, h1, h2, h3 => simp at h3
    · rw [if_neg hwy] at h2
      rw [if_neg hwy] at h3
      exact h2 h3
  · rw [if_neg hyx] at h1
    simp only [Except.ok.injEq] at h1
    by_cases hwx : tw = tx
    · subst hwx
      rw [if_neg (fun hh => hyx hh.symm)] at h2
      have h2f : pyStrLt tw ty = false := by
        by_cases hl : pyStrLt tw ty = true
        · exact absurd (by simp only [Except.ok.injEq]; exact hl) h2
        · simpa using hl
      exact hyx (pyStrLt_total h1 h2f)
    · rw [if_neg hwx] at h3
      simp only [Except.ok.injEq] at h3
      by_cases hwy : tw = ty
      · subst hwy
        rw [h1] at h3
        exact absurd h3 (by simp)
      · rw [if_neg hwy] at h2
        have h2f : pyStrLt tw ty = false := by
          by_cases hl : pyStrLt tw ty = true
          · exact absurd (by simp only [Except.ok.injEq]; exact hl) h2
          · simpa using hl
        rcases pyStrLt_false_cases h1 with heq | hlt
        · exact hyx heq
        · have := pyStrLt_trans h3 hlt
          rw [h2f] at this
          exact absurd this (by simp)

theorem insertE_perm (x : Elem) :
    ∀ l l', insertE x l = .ok l' → List.Perm l' (x :: l) := by
  intro l
  induction l with
  | nil =>
    intro l' h
    simp only [insertE] at h
    injection h with h
    subst h
    exact List.Perm.refl _
  | cons y ys ih =>
    intro l' h
    simp only [insertE] at h
    split at h
    · exact absurd h (by simp)
    · split at h
      · exact absurd h (by simp)
      · rename_i r hr
        injection h with h
        subst h
        exact (List.Perm.cons y (ih r hr)).trans (List.Perm.swap x y ys)
    · injection h with h
      subst h
      exact List.Perm.refl _

theorem insertE_pairwise (x : Elem) :
    ∀ l l', List.Pairwise (fun a b => childLt b a ≠ .ok true) l →
      insertE x l = .ok l' → List.Pairwise (fun a b => childLt b a ≠ .ok true) l' := by
  intro l
  induction l with
  | nil =>
    intro l' _ h
    simp only [insertE] at h
    injection h with h
    subst h
    simp
  | cons y ys ih =>
    intro l' hp h
    simp only [insertE] at h
    split at h
    · exact absurd h (by simp)
    · rename_i hyx
      split at h
      · exact absurd h (by simp)
      · rename_i r hr
        injection h with h
        subst h
        have hp2 := List.pairwise_cons.mp hp
        refine List.pairwise_cons.mpr ⟨?_, ih r hp2.2 hr⟩
        intro z hz
        have hz2 : z ∈ x :: ys := ((insertE_perm x ys r hr).mem_iff).mp hz
        rcases List.mem_cons.mp hz2 with hzx | hzys
        · subst hzx
          rw [show childLt z y = keyLt (childKey z) (childKey y) from rfl,
            keyLt_asym _ _ hyx]
          simp
        · exact hp2.1 z hzys
    · rename_i hyx
      injection h with h
      subst h
      have hp2 := List.pairwise_cons.mp hp
      refine List.pairwise_cons.mpr ⟨?_, hp⟩
      intro z hz
      rcases List.mem_cons.mp hz with hzy | hzys
      · subst hzy
        intro hcon
        exact absurd (hyx.symm.trans hcon) (by simp)
      · exact keyLt_chain _ _ _ hyx (hp2.1 z hzys)

theorem sortE_perm : ∀ l l', sortE l = .ok l' → List.Perm l' l := by
  intro l
  induction l with
  | nil =>
    intro l' h
    simp only [sortE] at h
    injection h with h
    subst h
    exact List.Perm.refl _
  | cons x xs ih =>
    intro l' h
    simp only [sortE] at h
    split at h
    · exact absurd h (by simp)
    · rename_i r hr
      exact (insertE_perm x r l' h).trans (List.Perm.cons x (ih r hr))

theorem sortE_pairwise : ∀ l l', sortE l = .ok l' →
    List.Pairwise (fun a b => childLt b a ≠ .ok true) l' := by
  intro l
  induction l with
  | nil =>
    intro l' h
    simp only [sortE] at h
    injection h with h
    subst h
    simp
  | cons x xs ih =>
    intro l' h
    simp only [sortE] at h
    split at h
    · exact absurd h (by simp)
    · rename_i r hr
      exact insertE_pairwise x r l' (ih r hr) h

/-- What a successful `sortEach` does to each list member: tag and
attributes kept, children permuted into an order where no later child's
key compares strictly below an earlier one's. -/
theorem sortEach_spec : ∀ cs cs', sortEach cs = .ok cs' →
    List.Forall₂ (fun c c' => c'.tag = c.tag ∧ c'.attrib = c.attrib ∧
      List.Perm c'.children c.children ∧
      List.Pairwise (fun a b => childLt b a ≠ .ok true) c'.children) cs cs' := by
  intro cs
  induction cs with
  | nil =>
    intro cs' h
    simp only [sortEach] at h
    injection h with h
    subst h
    exact List.Forall₂.nil
  | cons c rest ih =>
    intro cs' h
    simp only [sortEach] at h
    split at h
    · exact absurd h (by simp)
    · rename_i s hs
      split at h
      · exact absurd h (by simp)
      · rename_i rs hrs
        injection h with h
        subst h
        exact List.Forall₂.cons
          ⟨rfl, rfl, sortE_perm _ _ hs, sortE_pairwise _ _ hs⟩ (ih rs hrs)

/-- C10: the attribute-order canonicalizer is not total on well-formed
trees.  On a tree whose root has one child with two children sharing the
tag `a`, exactly one of which carries a `desc` attribute, the key
comparison reaches Python's `None < str`, raising a `TypeError`
(`.error ()` here) that `_sort_xml_attributes` does not catch — by
contrast a parse failure would surface as `ET.ParseError`, which the
caller `_specific_cleanup` catches and converts to a reported failure. -/
theorem c10_sort_typeerror :
    sortXmlAttributes (Elem.mk "root" [] [Elem.mk "c" []
      [Elem.mk "a" [("desc", "x")] [], Elem.mk "a" [] []]]) = .error () :=
  rfl

/-- C5, counterexample.  The claim says the canonicalizer sorts the direct
children of **every** element at every depth, **including the root**.  It
does not: on a root whose children are tagged `b`, `a` (childless, so
nothing else can change), the rewrite succeeds and returns the tree
unchanged, with the root's children still in the order `b`, `a`, although
the `a` child's key compares strictly below the `b` child's. -/
theorem c5_counterexample :
    sortAndWrite (Elem.mk "root" [] [Elem.mk "b" [] [], Elem.mk "a" [] []]) =
      .ok ⟨true, Elem.mk "root" [] [Elem.mk "b" [] [], Elem.mk "a" [] []]⟩ ∧
    ¬ List.Pairwise (fun a b => childLt b a ≠ .ok true)
      [Elem.mk "b" [] [], Elem.mk "a" [] []] := by
  refine ⟨rfl, fun h => ?_⟩
  exact (List.pairwise_cons.mp h).1 (Elem.mk "a" [] [])
    (List.mem_singleton.mpr rfl) rfl

/-- C5, amended: when `_sort_xml_attributes` succeeds (no `TypeError`,
compare C10), it rewrites the file with an XML declaration, keeps the
root's tag, attributes and child order, and replaces each **direct child
of the root** (not every element, and not the root itself) by the same
element with its children permuted so that no later child's sort key
`(tag, desc)` compares strictly below an earlier one's; tags, attributes
and subtrees of those grandchildren are untouched, and deeper levels are
never reordered. -/
theorem c5_amended (root : Elem) (w : XmlOut) (h : sortAndWrite root = .ok w) :
    w.xmlDecl = true ∧ w.root.tag = root.tag ∧ w.root.attrib = root.attrib ∧
    List.Forall₂ (fun c c' => c'.tag = c.tag ∧ c'.attrib = c.attrib ∧
      List.Perm c'.children c.children ∧
      List.Pairwise (fun a b => childLt b a ≠ .ok true) c'.children)
      root.children w.root.children := by
  simp only [sortAndWrite] at h
  split at h
  · exact absurd h (by simp)
  · rename_i t ht
    injection h with h
    subst h
    simp only [sortXmlAttributes] at ht
    split at ht
    · exact absurd ht (by simp)
    · rename_i cs hcs
      injection ht with ht
      subst ht
      exact ⟨rfl, rfl, rfl, sortEach_spec root.children cs hcs⟩

/-- Witness for `c5_amended`: a root with one child `c` whose children are
tagged `b`, `a`; the rewrite sorts the grandchildren to `a`, `b`. -/
theorem c5_witness :
    (⟨true, Elem.mk "r" [] [Elem.mk "c" [] [Elem.mk "a" [] [], Elem.mk "b" [] []]]⟩ :
        XmlOut).xmlDecl = true ∧
    (Elem.mk "r" [] [Elem.mk "c" [] [Elem.mk "a" [] [], Elem.mk "b" [] []]]).tag =
      (Elem.mk "r" [] [Elem.mk "c" [] [Elem.mk "b" [] [], Elem.mk "a" [] []]]).tag ∧
    (Elem.mk "r" [] [Elem.mk "c" [] [Elem.mk "a" [] [], Elem.mk "b" [] []]]).attrib =
      (Elem.mk "r" [] [Elem.mk "c" [] [Elem.mk "b" [] [], Elem.mk "a" [] []]]).attrib ∧
    List.Forall₂ (fun c c' => c'.tag = c.tag ∧ c'.attrib = c.attrib ∧
      List.Perm c'.children c.children ∧
      List.Pairwise (fun a b => childLt b a ≠ .ok true) c'.children)
      (Elem.mk "r" [] [Elem.mk "c" [] [Elem.mk "b" [] [], Elem.mk "a" [] []]]).children
      (Elem.mk "r" [] [Elem.mk "c" [] [Elem.mk "a" [] [], Elem.mk "b" [] []]]).children :=
  c5_amended (Elem.mk "r" [] [Elem.mk "c" [] [Elem.mk "b" [] [], Elem.mk "a" [] []]])
    ⟨true, Elem.mk "r" [] [Elem.mk "c" [] [Elem.mk "a" [] [], Elem.mk "b" [] []]]⟩ rfl

/-- Every proper descendant of a cleaned child list has a non-matching tag
and only non-matching attribute keys. -/
theorem rsidCleanList_sound :
    ∀ cs, (descList (rsidCleanList cs)).all
      (fun d => !rsidTagHit d.tag && d.attrib.all (fun kv => !rsidAttrHit kv.1)) = true := by
  suffices H : ∀ n cs, sizeOf cs = n → (descList (rsidCleanList cs)).all
      (fun d => !rsidTagHit d.tag && d.attrib.all (fun kv => !rsidAttrHit kv.1)) = true by
    exact fun cs => H (sizeOf cs) cs rfl
  intro n
  induction n using Nat.strong_induction_on with
  | _ n ih =>
    intro cs hn
    match cs with
    | [] => simp [rsidCleanList, descList]
    | Elem.mk t a cls :: rest =>
      have hsz : sizeOf (Elem.mk t a cls :: rest) = n := hn
      simp only [List.cons.sizeOf_spec, Elem.mk.sizeOf_spec] at hsz
      simp only [rsidCleanList]
      split
      · exact ih (sizeOf rest) (by omega) rest rfl
      · rename_i hhit
        simp only [descList, rsidCleanElem, List.all_append, List.all_cons,
          Bool.and_eq_true]
        refine ⟨⟨?_, ?_⟩, ?_⟩
        · simp only [Elem.tag, Elem.attrib, Bool.and_eq_true, Bool.not_eq_true']
          constructor
          · simpa using hhit
          · rw [List.all_eq_true]
            intro kv hkv
            exact (List.mem_filter.mp hkv).2
        · show (descendants (Elem.mk t (a.filter fun kv => !rsidAttrHit kv.1)
            (rsidCleanList cls))).all _ = true
          simp only [descendants]
          exact ih (sizeOf cls) (by omega) cls rfl
        · exact ih (sizeOf rest) (by omega) rest rfl

/-- C4, counterexample.  The claim promises that whenever the rsid-removal
step reports success, no element with `rsid` in its local name remains.
But when the parsed member does not bind the `w` namespace at all, the
step returns `True` without touching the file: a member whose root has a
child tagged `{u}rsidR` — local name `rsidR`, containing `rsid` — is
reported cleaned while the element survives. -/
theorem c4_counterexample :
    msRemoveRsid [] (Elem.mk "r" [] [Elem.mk "\x7bu\x7drsidR" [] []]) =
      (true, Elem.mk "r" [] [Elem.mk "\x7bu\x7drsidR" [] []]) ∧
    strOcc "rsid" (pyLower "rsidR") = true :=
  ⟨rfl, rfl⟩

/-- C4, amended: when the member's namespace map binds the `w` namespace,
the step reports success and afterwards no **proper descendant** of the
root (the root itself is outside the `.//` walk) has a trimmed, lowered
tag containing `'}rsid'` — a namespaced name whose local part starts with
`rsid`, not an arbitrary occurrence of `rsid` in the local name — and no
descendant keeps an attribute whose lowered key contains `'}rsid'`.
When `w` is not bound the step still reports success but changes
nothing. -/
theorem c4_amended (ns : List (String × String)) (root : Elem) (uri : String)
    (h : pyLookup ns "w" = some uri) :
    (msRemoveRsid ns root).1 = true ∧
    (descendants (msRemoveRsid ns root).2).all
      (fun d => !rsidTagHit d.tag && d.attrib.all (fun kv => !rsidAttrHit kv.1)) = true := by
  have hstep : msRemoveRsid ns root =
      (true, .mk root.tag root.attrib (rsidCleanList root.children)) := by
    simp [msRemoveRsid, h]
  rw [hstep]
  exact ⟨rfl, by
    show (descendants (Elem.mk root.tag root.attrib (rsidCleanList root.children))).all _ = true
    simp only [descendants]
    exact rsidCleanList_sound root.children⟩

/-- Witness for `c4_amended`: with `w` bound, a member whose root has one
`{u}rsidR` child is cleaned to a childless root. -/
theorem c4_witness :
    (msRemoveRsid [("w", "u")] (Elem.mk "r" [] [Elem.mk "\x7bu\x7drsidR" [] []])).1 = true ∧
    (descendants (msRemoveRsid [("w", "u")]
        (Elem.mk "r" [] [Elem.mk "\x7bu\x7drsidR" [] []])).2).all
      (fun d => !rsidTagHit d.tag && d.attrib.all (fun kv => !rsidAttrHit kv.1)) = true :=
  c4_amended [("w", "u")] (Elem.mk "r" [] [Elem.mk "\x7bu\x7drsidR" [] []]) "u" rfl

theorem elemEqList_refl : ∀ l, elemEqList l l = true := by
  suffices H : ∀ n l, sizeOf l = n → elemEqList l l = true by
    exact fun l => H (sizeOf l) l rfl
  intro n
  induction n using Nat.strong_induction_on with
  | _ n ih =>
    intro l hn
    match l with
    | [] => rfl
    | Elem.mk t a cs :: rest =>
      simp only [List.cons.sizeOf_spec, Elem.mk.sizeOf_spec] at hn
      simp only [elemEqList, elemEq, Bool.and_eq_true, beq_self_eq_true]
      exact ⟨⟨⟨trivial, trivial⟩, ih (sizeOf cs) (by omega) cs rfl⟩,
        ih (sizeOf rest) (by omega) rest rfl⟩

theorem elemEq_refl (a : Elem) : elemEq a a = true := by
  match a with
  | Elem.mk t att cs =>
    simp only [elemEq, Bool.and_eq_true, beq_self_eq_true]
    exact ⟨⟨trivial, trivial⟩, elemEqList_refl cs⟩

theorem elemEq_tag : ∀ a b, elemEq a b = true → a.tag = b.tag := by
  intro a b h
  match a, b with
  | Elem.mk t1 a1 c1, Elem.mk t2 a2 c2 =>
    simp only [elemEq, Bool.and_eq_true, beq_iff_eq] at h
    exact h.1.1

theorem descList_mem_child : ∀ (cs : List Elem) (c : Elem), c ∈ cs →
    ∀ d, (d = c ∨ d ∈ descendants c) → d ∈ descList cs := by
  intro cs
  induction cs with
  | nil => intro c hc; exact absurd hc (by simp)
  | cons x rest ih =>
    intro c hc d hd
    simp only [descList]
    rcases List.mem_cons.mp hc with hcx | hcr
    · subst hcx
      refine List.mem_append_left _ ?_
      rcases hd with hd | hd
      · exact hd ▸ List.mem_cons_self _ _
      · exact List.mem_cons_of_mem _ hd
    · exact List.mem_append_right _ (ih c hcr d hd)

theorem subtreeGood_child {ot tc : String} {t : String}
    {a : List (String × String)} {cs : List Elem} {c : Elem}
    (h : subtreeGoodB ot tc (Elem.mk t a cs) = true) (hc : c ∈ cs) :
    subtreeGoodB ot tc c = true := by
  simp only [subtreeGoodB, List.all_eq_true] at h ⊢
  intro d hd
  refine h d ?_
  rcases List.mem_cons.mp hd with hd | hd
  · exact List.mem_cons_of_mem _ (by
      show d ∈ descendants (Elem.mk t a cs)
      simp only [descendants]
      exact descList_mem_child cs c hc d (Or.inl hd))
  · exact List.mem_cons_of_mem _ (by
      show d ∈ descendants (Elem.mk t a cs)
      simp only [descendants]
      exact descList_mem_child cs c hc d (Or.inr hd))

theorem subtreeGood_head {ot tc : String} {t : String}
    {a : List (String × String)} {cs : List Elem}
    (h : subtreeGoodB ot tc (Elem.mk t a cs) = true) :
    (if (t == ot) = true then
      ((tcOcc tc (Elem.mk t a cs)).length ≤ 1 ∧
       (tcOcc tc (Elem.mk t a cs)).all
         (fun x => cs.any (fun c => elemEq c x)) = true)
    else (∀ c ∈ cs, (c.tag == tc) = false)) := by
  simp only [subtreeGoodB, List.all_eq_true] at h
  have := h (Elem.mk t a cs) (List.mem_cons_self _ _)
  split
  · rename_i hot
    rw [show (Elem.mk t a cs).tag = t from rfl] at this
    rw [if_pos hot] at this
    simp only [Bool.and_eq_true, decide_eq_true_eq] at this
    exact ⟨this.1, by
      have h2 := this.2
      simpa only [Elem.children] using h2⟩
  · rename_i hot
    rw [show (Elem.mk t a cs).tag = t from rfl] at this
    rw [if_neg (by simpa using hot)] at this
    simp only [Elem.children, List.all_eq_true] at this
    intro c hc
    simpa using this c hc

theorem noTag_flatten {tc : String} : ∀ cs2 : List Elem,
    cs2.all (noTagB tc) = true →
    (descList cs2).all (fun d => !(d.tag == tc)) = true := by
  intro cs2
  induction cs2 with
  | nil => intro _; rfl
  | cons c rest ih =>
    intro h
    simp only [List.all_cons, Bool.and_eq_true] at h
    simp only [descList, List.all_append, List.all_cons, Bool.and_eq_true]
    have hc := h.1
    simp only [noTagB, Bool.and_eq_true] at hc
    exact ⟨⟨hc.1, hc.2⟩, ih h.2⟩

theorem child_mem_tcOcc {tc t : String} {a : List (String × String)}
    {cs : List Elem} {c : Elem} (hc : c ∈ cs) (htag : (c.tag == tc) = true) :
    c ∈ tcOcc tc (Elem.mk t a cs) := by
  simp only [tcOcc, descendants]
  exact List.mem_filter.mpr ⟨descList_mem_child cs c hc c (Or.inl rfl), htag⟩

theorem filter_children_le_descList (p : Elem → Bool) :
    ∀ cs : List Elem, (cs.filter p).length ≤ ((descList cs).filter p).length := by
  intro cs
  induction cs with
  | nil => simp
  | cons c rest ih =>
    simp only [descList, List.filter_append, List.length_append, List.filter_cons]
    split
    · simp only [List.length_cons]
      omega
    · omega

theorem eraseFirstMask_spec (tc : String) : ∀ (cs : List Elem) (x : Elem),
    (x.tag == tc) = true →
    cs.any (fun c => elemEq c x) = true →
    (cs.filter (fun c => c.tag == tc)).length ≤ 1 →
    (eraseFirstMask x (cs.map (fun c => (c, true)))).map (fun p => p.2) =
      cs.map (fun c => !(c.tag == tc)) := by
  intro cs
  induction cs with
  | nil => intro x _ hany _; simp at hany
  | cons c rest ih =>
    intro x hx hany hlen
    simp only [List.map_cons, eraseFirstMask, Bool.true_and]
    by_cases heq : elemEq c x = true
    · rw [if_pos heq]
      have hctag : (c.tag == tc) = true := by
        rw [show c.tag = x.tag from elemEq_tag c x heq]
        exact hx
      have hrest : ∀ r ∈ rest, (r.tag == tc) = false := by
        intro r hr
        by_contra hrt
        simp only [Bool.not_eq_false] at hrt
        have : (List.filter (fun c => c.tag == tc) (c :: rest)).length ≥ 2 := by
          simp only [List.filter_cons, hctag, if_true, List.length_cons]
          have : r ∈ rest.filter (fun c => c.tag == tc) :=
            List.mem_filter.mpr ⟨hr, hrt⟩
          have := List.length_pos.mpr (List.ne_nil_of_mem this)
          omega
        omega
      simp only [List.map_cons, List.map_map, hctag, Bool.not_true]
      congr 1
      refine List.map_congr_left ?_
      intro r hr
      simp [hrest r hr]
    · rw [if_neg heq]
      have hany2 : rest.any (fun c => elemEq c x) = true := by
        simp only [List.any_cons] at hany
        rcases Bool.or_eq_true_iff.mp hany with h | h
        · exact absurd h heq
        · exact h
      have hctag : (c.tag == tc) = false := by
        by_contra hct
        simp only [Bool.not_eq_false] at hct
        obtain ⟨r, hr, hrx⟩ := List.any_eq_true.mp hany2
        have hrt : (r.tag == tc) = true := by
          rw [show r.tag = x.tag from elemEq_tag r x hrx]
          exact hx
        have : (List.filter (fun c => c.tag == tc) (c :: rest)).length ≥ 2 := by
          simp only [List.filter_cons, hct, if_true, List.length_cons]
          have : r ∈ rest.filter (fun c => c.tag == tc) :=
            List.mem_filter.mpr ⟨hr, hrt⟩
          have := List.length_pos.mpr (List.ne_nil_of_mem this)
          omega
        omega
      have hlen2 : (rest.filter (fun c => c.tag == tc)).length ≤ 1 := by
        simp only [List.filter_cons, hctag] at hlen
        simpa using hlen
      simp only [List.map_cons, hctag, Bool.not_false]
      congr 1
      exact ih x hx hany2 hlen2

theorem processOT_spec {ot tc t : String} {a : List (String × String)} {cs : List Elem}
    (hot : (t == ot) = true) (hg : subtreeGoodB ot tc (Elem.mk t a cs) = true) :
    processOT (some tc) (Elem.mk t a cs) = .ok (cs.map (fun c => !(c.tag == tc))) := by
  have hh := subtreeGood_head hg
  rw [if_pos hot] at hh
  obtain ⟨hlen, hmatch⟩ := hh
  rcases hocc : tcOcc tc (Elem.mk t a cs) with _ | ⟨x, _ | ⟨y, rest⟩⟩
  · have hnotc : ∀ c ∈ cs, (c.tag == tc) = false := by
      intro c hc
      by_contra hct
      simp only [Bool.not_eq_false] at hct
      have := child_mem_tcOcc (t := t) (a := a) hc hct
      rw [hocc] at this
      simp at this
    simp only [processOT]
    rw [show (descendants (Elem.mk t a cs)).filter (fun d => d.tag == tc) =
      tcOcc tc (Elem.mk t a cs) from rfl, hocc]
    simp only [Elem.children, removeEachTC, List.map_map]
    congr 1
    refine List.map_congr_left ?_
    intro c hc
    simp [hnotc c hc]
  · have hxt : (x.tag == tc) = true := by
      have hx : x ∈ tcOcc tc (Elem.mk t a cs) := by
        rw [hocc]; exact List.mem_singleton.mpr rfl
      simp only [tcOcc] at hx
      exact (List.mem_filter.mp hx).2
    have hany : cs.any (fun c => elemEq c x) = true := by
      rw [hocc] at hmatch
      have := List.all_eq_true.mp hmatch x (List.mem_singleton.mpr rfl)
      simpa using this
    have hlen2 : (cs.filter (fun c => c.tag == tc)).length ≤ 1 := by
      have hle := filter_children_le_descList (fun c => c.tag == tc) cs
      have h2 : ((descList cs).filter (fun d => d.tag == tc)).length = 1 := by
        rw [show (descList cs).filter (fun d => d.tag == tc) =
          tcOcc tc (Elem.mk t a cs) from rfl, hocc]
        rfl
      omega
    have hcond : (cs.map (fun c => (c, true))).any (fun p => p.2 && elemEq p.1 x) = true := by
      obtain ⟨c, hc, hcx⟩ := List.any_eq_true.mp hany
      refine List.any_eq_true.mpr ⟨(c, true), List.mem_map.mpr ⟨c, hc, rfl⟩, ?_⟩
      simpa using hcx
    simp only [processOT]
    rw [show (descendants (Elem.mk t a cs)).filter (fun d => d.tag == tc) =
      tcOcc tc (Elem.mk t a cs) from rfl, hocc]
    simp only [Elem.children, removeEachTC]
    rw [if_pos hcond]
    simp only [removeEachTC]
    congr 1
    exact eraseFirstMask_spec tc cs x hxt hany hlen2
  · rw [hocc] at hlen
    simp at hlen

/-- Soundness of the traversal on sunny-day documents: processing a child
list whose members all satisfy `subtreeGoodB`, under the mask that keeps
exactly the non-tracked-changes children, succeeds and leaves no
tracked-changes element anywhere below. -/
theorem remRev_sound : ∀ n (cs : List Elem), sizeOf cs ≤ n → ∀ ot tc : String,
    cs.all (subtreeGoodB ot tc) = true →
    ∃ cs2, remRevList ot (some tc) cs (cs.map (fun c => !(c.tag == tc))) = .ok cs2 ∧
      cs2.all (noTagB tc) = true := by
  intro n
  induction n using Nat.strong_induction_on with
  | _ n ih =>
    intro cs hsz ot tc hall
    match cs with
    | [] => exact ⟨[], rfl, rfl⟩
    | (Elem.mk t a cls) :: rest =>
      simp only [List.cons.sizeOf_spec, Elem.mk.sizeOf_spec] at hsz
      simp only [List.all_cons, Bool.and_eq_true] at hall
      obtain ⟨hgc, hgrest⟩ := hall
      obtain ⟨rs2, hok2, hnt2⟩ :=
        ih (sizeOf rest) (by omega) rest le_rfl ot tc hgrest
      by_cases htc : (t == tc) = true
      · refine ⟨rs2, ?_, hnt2⟩
        simp only [List.map_cons, Elem.tag, htc, Bool.not_true, remRevList,
          List.headD_cons, List.tail_cons]
        exact hok2
      · have htcf : (t == tc) = false := by simpa using htc
        by_cases hot : (t == ot) = true
        · have hpo := processOT_spec hot hgc
          obtain ⟨cls2, hok1, hnt1⟩ :=
            ih (sizeOf cls) (by omega) cls le_rfl ot tc (by
              rw [List.all_eq_true]
              intro c hc
              exact subtreeGood_child hgc hc)
          refine ⟨Elem.mk t a cls2 :: rs2, ?_, ?_⟩
          · simp only [Elem.tag] at hpo hok1 hok2
            simp only [List.map_cons, Elem.tag, htcf, Bool.not_false, remRevList,
              List.headD_cons, List.tail_cons, if_true, remRevElem, hot, hpo,
              hok1, hok2]
          · simp only [List.all_cons, Bool.and_eq_true]
            refine ⟨?_, hnt2⟩
            simp only [noTagB, Bool.and_eq_true, Elem.tag, htcf, Bool.not_false]
            refine ⟨trivial, ?_⟩
            show (descendants (Elem.mk t a cls2)).all _ = true
            simp only [descendants]
            exact noTag_flatten cls2 hnt1
        · have hotf : (t == ot) = false := by simpa using hot
          have hnochild : ∀ c ∈ cls, (c.tag == tc) = false := by
            have := subtreeGood_head hgc
            rw [if_neg (by simp [hotf])] at this
            exact this
          have hmask : cls.map (fun _ => true) = cls.map (fun c => !(c.tag == tc)) := by
            refine List.map_congr_left ?_
            intro c hc
            simp [hnochild c hc]
          obtain ⟨cls2, hok1, hnt1⟩ :=
            ih (sizeOf cls) (by omega) cls le_rfl ot tc (by
              rw [List.all_eq_true]
              intro c hc
              exact subtreeGood_child hgc hc)
          refine ⟨Elem.mk t a cls2 :: rs2, ?_, ?_⟩
          · simp only [Elem.tag] at hmask hok1 hok2
            simp only [List.map_cons, Elem.tag, htcf, Bool.not_false, remRevList,
              List.headD_cons, List.tail_cons, if_true, remRevElem, hotf, hmask,
              Bool.false_eq_true, if_false, hok1, hok2]
          · simp only [List.all_cons, Bool.and_eq_true]
            refine ⟨?_, hnt2⟩
            simp only [noTagB, Bool.and_eq_true, Elem.tag, htcf, Bool.not_false]
            refine ⟨trivial, ?_⟩
            show (descendants (Elem.mk t a cls2)).all _ = true
            simp only [descendants]
            exact noTag_flatten cls2 hnt1

/-- C7, counterexample.  The claim says the step removes every
`<text:tracked-changes>` descendant **at any depth** of an `office:text`
element and succeeds on every well-formed input.  But the code calls
`text.remove(changes)` on the `office:text` element itself, which raises
an uncaught `ValueError` when the found block is not one of its *direct*
children: a document with `office:text → text:p → text:tracked-changes`
makes `__remove_revisions` raise instead of succeeding. -/
theorem c7_counterexample :
    libreRemoveRevisions [("office", "OU"), ("text", "TU")]
      (Elem.mk "doc" [] [Elem.mk "\x7bOU\x7dtext" []
        [Elem.mk "\x7bTU\x7dp" [] [Elem.mk "\x7bTU\x7dtracked-changes" [] []]]]) =
      .error () :=
  rfl

/-- C7, amended: the step is a no-op (reported success, tree untouched)
when the `office` namespace is not bound; and on documents whose
tracked-changes blocks occur only as **direct children** of `office:text`
elements, at most one per element (the shape ODF writers produce), it
succeeds and the output contains no tracked-changes element anywhere
below the root.  When a block occurs only at a deeper level the code
raises an uncaught `ValueError` (see the counterexample). -/
theorem c7_amended (ns : List (String × String)) (root : Elem) :
    (pyLookup ns "office" = none → libreRemoveRevisions ns root = .ok root) ∧
    (∀ ouri turi, pyLookup ns "office" = some ouri → pyLookup ns "text" = some turi →
      root.children.all (fun c => !(c.tag == tcElemName turi) &&
        subtreeGoodB (otElemName ouri) (tcElemName turi) c) = true →
      ∃ out, libreRemoveRevisions ns root = .ok out ∧
        out.children.all (noTagB (tcElemName turi)) = true) := by
  constructor
  · intro h
    simp only [libreRemoveRevisions, h]
  · intro ouri turi ho ht hgood
    simp only [List.all_eq_true, Bool.and_eq_true] at hgood
    have hall : root.children.all
        (subtreeGoodB (otElemName ouri) (tcElemName turi)) = true := by
      rw [List.all_eq_true]
      intro c hc
      exact (hgood c hc).2
    have hmask : root.children.map (fun _ => true) =
        root.children.map (fun c => !(c.tag == tcElemName turi)) := by
      refine List.map_congr_left ?_
      intro c hc
      have := (hgood c hc).1
      simp only [Bool.not_eq_true'] at this
      simp [this]
    obtain ⟨cs2, hok, hnt⟩ := remRev_sound (sizeOf root.children) root.children
      le_rfl (otElemName ouri) (tcElemName turi) hall
    refine ⟨Elem.mk root.tag root.attrib cs2, ?_, ?_⟩
    · simp only [libreRemoveRevisions, ho, ht, Option.map_some']
      rw [hmask, hok]
    · simpa only [Elem.children] using hnt

/-- Witness for `c7_amended`: a document with one `office:text` whose
tracked-changes block is a direct child is cleaned successfully. -/
theorem c7_witness :
    (Elem.mk "d" [] [Elem.mk "\x7bOU\x7dtext" []
        [Elem.mk "\x7bTU\x7dtracked-changes" [] [], Elem.mk "\x7bTU\x7dp" [] []]]).children.all
      (fun c => !(c.tag == tcElemName "TU") &&
        subtreeGoodB (otElemName "OU") (tcElemName "TU") c) = true ∧
    (∃ out, libreRemoveRevisions [("office", "OU"), ("text", "TU")]
        (Elem.mk "d" [] [Elem.mk "\x7bOU\x7dtext" []
          [Elem.mk "\x7bTU\x7dtracked-changes" [] [], Elem.mk "\x7bTU\x7dp" [] []]]) = .ok out ∧
      out.children.all (noTagB (tcElemName "TU")) = true) :=
  ⟨by decide,
    (c7_amended [("office", "OU"), ("text", "TU")]
      (Elem.mk "d" [] [Elem.mk "\x7bOU\x7dtext" []
        [Elem.mk "\x7bTU\x7dtracked-changes" [] [], Elem.mk "\x7bTU\x7dp" [] []]])).2
      "OU" "TU" rfl rfl (by decide)⟩

theorem removeContentTypeMembers_false {removed : List String} {f f1 : MFile}
    (h : removeContentTypeMembers removed f = .ok (false, f1)) : f1 = f := by
  match f with
  | .bad =>
    simp only [removeContentTypeMembers, Except.ok.injEq, Prod.mk.injEq] at h
    exact h.2.symm
  | .good ns root =>
    simp only [removeContentTypeMembers] at h
    split at h
    · simp only [Except.ok.injEq, Prod.mk.injEq] at h
      exact h.2.symm
    · split at h
      · exact absurd h (by simp)
      · split at h
        · exact absurd h (by simp)
        · simp at h

theorem msRemoveRevisions_false {f f1 : MFile}
    (h : msRemoveRevisions f = .ok (false, f1)) : f1 = f := by
  match f with
  | .bad =>
    simp only [msRemoveRevisions, Except.ok.injEq, Prod.mk.injEq] at h
    exact h.2.symm
  | .good ns root =>
    simp only [msRemoveRevisions] at h
    split at h
    · exact absurd h (by simp)
    · split at h
      · simp at h
      · simp at h

theorem msRemoveRsid_fst (ns : List (String × String)) (root : Elem) :
    (msRemoveRsid ns root).1 = true := by
  simp only [msRemoveRsid]
  split <;> rfl

theorem msRemoveRsidFile_false {f f2 : MFile}
    (h : msRemoveRsidFile f = (false, f2)) : f2 = f ∧ f = .bad := by
  match f with
  | .bad =>
    simp only [msRemoveRsidFile, Prod.mk.injEq] at h
    exact ⟨h.2.symm, rfl⟩
  | .good ns root =>
    simp only [msRemoveRsidFile, Prod.mk.injEq, msRemoveRsid_fst] at h
    exact absurd h.1 (by simp)

theorem msRemoveRsidFile_true_good {f f2 : MFile}
    (h : msRemoveRsidFile f = (true, f2)) : ∃ ns root, f2 = .good ns root := by
  match f with
  | .bad => simp [msRemoveRsidFile] at h
  | .good ns root =>
    simp only [msRemoveRsidFile, Prod.mk.injEq] at h
    exact ⟨ns, (msRemoveRsid ns root).2, h.2.symm⟩

theorem removeContentTypeMembers_true {removed : List String} {f f1 : MFile}
    (h : removeContentTypeMembers removed f = .ok (true, f1)) :
    ∃ ns r, f1 = MFile.good ns r := by
  match f with
  | .bad => simp [removeContentTypeMembers] at h
  | .good ns root =>
    simp only [removeContentTypeMembers] at h
    split at h
    · simp at h
    · split at h
      · exact absurd h (by simp)
      · split at h
        · exact absurd h (by simp)
        · simp only [Except.ok.injEq, Prod.mk.injEq] at h
          exact ⟨ns, _, h.2.symm⟩

theorem msRemoveRevisions_true {f f1 : MFile}
    (h : msRemoveRevisions f = .ok (true, f1)) :
    ∃ ns r, f1 = MFile.good ns r := by
  match f with
  | .bad => simp [msRemoveRevisions] at h
  | .good ns root =>
    simp only [msRemoveRevisions] at h
    split at h
    · exact absurd h (by simp)
    · split at h
      · simp only [Except.ok.injEq, Prod.mk.injEq] at h
        exact ⟨ns, root, h.2.symm⟩
      · simp only [Except.ok.injEq, Prod.mk.injEq] at h
        exact ⟨ns, _, h.2.symm⟩

theorem sortXmlFile_parseErr {f2 : MFile}
    (h : sortXmlFile f2 = .error .parseErr) : f2 = .bad := by
  match f2 with
  | .bad => rfl
  | .good ns root =>
    simp only [sortXmlFile] at h
    split at h
    · simp at h
    · simp at h

/-- The dispatch on the member path inside `_specific_cleanup`: whenever it
reports `False` the file is the one it was handed. -/
theorem cleanupBranch_false {removed : List String} {path : String} {f f1 : MFile}
    (h : (if pyEndsWith path "/[Content_Types].xml" then
            removeContentTypeMembers removed f
          else if pyEndsWith path "/word/document.xml" then
            msRemoveRevisions f
          else if pyEndsWith path "/docProps/app.xml" then
            .ok (true, appXmlWritten)
          else if pyEndsWith path "/docProps/core.xml" then
            .ok (true, coreXmlWritten)
          else .ok (true, f)) = .ok (false, f1)) : f1 = f := by
  split at h
  · exact removeContentTypeMembers_false h
  · split at h
    · exact msRemoveRevisions_false h
    · split at h
      · simp at h
      · split at h
        · simp at h
        · simp at h

theorem cleanupBranch_true_bad {removed : List String} {path : String} {f f1 : MFile}
    (h : (if pyEndsWith path "/[Content_Types].xml" then
            removeContentTypeMembers removed f
          else if pyEndsWith path "/word/document.xml" then
            msRemoveRevisions f
          else if pyEndsWith path "/docProps/app.xml" then
            .ok (true, appXmlWritten)
          else if pyEndsWith path "/docProps/core.xml" then
            .ok (true, coreXmlWritten)
          else .ok (true, f)) = .ok (true, f1))
    (hb : f1 = MFile.bad) : f1 = f := by
  split at h
  · obtain ⟨ns, r, hr⟩ := removeContentTypeMembers_true h
    rw [hr] at hb
    exact absurd hb (by simp)
  · split at h
    · obtain ⟨ns, r, hr⟩ := msRemoveRevisions_true h
      rw [hr] at hb
      exact absurd hb (by simp)
    · split at h
      · simp only [Except.ok.injEq, Prod.mk.injEq] at h
        rw [← h.2] at hb
        exact absurd hb (by simp [appXmlWritten])
      · split at h
        · simp only [Except.ok.injEq, Prod.mk.injEq] at h
          rw [← h.2] at hb
          exact absurd hb (by simp [coreXmlWritten])
        · simp only [Except.ok.injEq, Prod.mk.injEq] at h
          exact h.2.symm

/-- C6: if any step of `_specific_cleanup` reports failure (the hook
returns `False`), the member's file is exactly what was read before the
hook ran — the reporting branches fire either before any rewrite of the
member or on a member state some step refused to parse, never after a
partial rewrite.  (`.error ()`, an uncaught exception escaping the hook,
is a different outcome than returning `False` and is outside this
claim's hypothesis.) -/
theorem c6_failure_leaves_file (removed : List String) (path : String)
    (empty : Bool) (f f' : MFile)
    (h : specificCleanup removed path empty f = .ok (false, f')) : f' = f := by
  unfold specificCleanup at h
  split at h
  · simp at h
  · split at h
    · simp at h
    · split at h
      · simp at h
      · rename_i f1 heq
        simp only [Except.ok.injEq, Prod.mk.injEq] at h
        exact h.2.symm.trans (cleanupBranch_false heq)
      · rename_i f1 heq
        split at h
        · rename_i f2 heq2
          simp only [Except.ok.injEq, Prod.mk.injEq] at h
          obtain ⟨hf2, hbad⟩ := msRemoveRsidFile_false heq2
          exact h.2.symm.trans (hf2.trans (cleanupBranch_true_bad heq hbad))
        · rename_i f2 heq2
          split at h
          · obtain ⟨ns, r, hr⟩ := msRemoveRsidFile_true_good heq2
            rename_i heq3
            rw [sortXmlFile_parseErr heq3] at hr
            exact absurd hr (by simp)
          · simp at h
          · simp at h

/-- Witness for `c6_failure_leaves_file`: a malformed `word/document.xml`
member makes the revisions step report failure, and the file on disk is
the member exactly as it was read. -/
theorem c6_witness :
    specificCleanup [] "w/word/document.xml" false MFile.bad = .ok (false, MFile.bad) ∧
    MFile.bad = MFile.bad :=
  ⟨rfl, c6_failure_leaves_file [] "w/word/document.xml" false MFile.bad MFile.bad rfl⟩

/-- Counterexample to C2: the claim's literal input
`<meta name="author" content="Bob">` carries no `/>`, so the stdlib
tokenizer delivers it to `handle_starttag`, not `handle_startendtag`.
That handler pushes the raw tag onto the validation queue and harvests
nothing, so after feeding, the state holds an empty metadata map and an
unclosed tag — and both `get_meta` and `remove_all` then raise
`ValueError` instead of returning the claimed values. -/
theorem c2_counterexample :
    runParse htmlCfg [HEvent.start "meta" "<meta name=\"author\" content=\"Bob\">"] =
      .ok (HState.mk [] [] ["<meta name=\"author\" content=\"Bob\">"] 0 1) ∧
    getMetaRun htmlCfg [HEvent.start "meta" "<meta name=\"author\" content=\"Bob\">"] =
      .error () ∧
    removeAllRun htmlCfg [HEvent.start "meta" "<meta name=\"author\" content=\"Bob\">"] =
      .error () :=
  ⟨rfl, rfl, rfl⟩

/-- C2 amended: only the self-closing spelling
`<meta name="author" content="Bob" />` reaches `handle_startendtag` as one
self-closing tag event carrying its attributes.  For that input, with
`meta` in the plain blacklist, processing harvests `{"author": "Bob"}`
into the metadata map, appends nothing to the output buffer, and neither
`get_meta` nor `remove_all` raises. -/
theorem c2_amended :
    getMetaRun htmlCfg [HEvent.startend "meta"
        [("name", "author"), ("content", "Bob")] "<meta name=\"author\" content=\"Bob\" />"] =
      .ok [("author", "Bob")] ∧
    removeAllRun htmlCfg [HEvent.startend "meta"
        [("name", "author"), ("content", "Bob")] "<meta name=\"author\" content=\"Bob\" />"] =
      .ok "" :=
  ⟨rfl, rfl⟩

/-- C3: with `title` in the required blacklist, `<title>Secret</title>`
(events: start tag, character data, end tag) is processed without error;
the depth-one start and end tags are emitted while the character data is
dropped, so `remove_all` writes exactly `<title></title>`, which contains
no occurrence of `Secret`. -/
theorem c3_title_placeholder :
    removeAllRun htmlCfg [HEvent.start "title" "<title>", HEvent.text "Secret",
      HEvent.stop "title"] = .ok "<title></title>" ∧
    strOcc "Secret" "<title></title>" = false :=
  ⟨rfl, rfl⟩

theorem runNest_append : ∀ (l1 l2 : List OutTok) (stk : List String),
    runNest (l1 ++ l2) stk =
      match runNest l1 stk with
      | none => none
      | some s => runNest l2 s := by
  intro l1
  induction l1 with
  | nil => intro l2 stk; rfl
  | cons t rest ih =>
    intro l2 stk
    cases t with
    | startT o =>
      simp only [List.cons_append, runNest]
      exact ih l2 (o :: stk)
    | endT nm =>
      simp only [List.cons_append, runNest]
      match stk with
      | [] => rfl
      | top :: stk2 =>
        dsimp only
        by_cases hm : (nm == tagFromText top) = true
        · rw [if_pos hm, if_pos hm]
          exact ih l2 stk2
        · rw [if_neg hm, if_neg hm]
    | dataT s =>
      simp only [List.cons_append, runNest]
      exact ih l2 stk
    | selfT s =>
      simp only [List.cons_append, runNest]
      exact ih l2 stk
    | rawT s =>
      simp only [List.cons_append, runNest]
      exact ih l2 stk

theorem countTags_cons (bl : List String) (t : String) (q : List String) :
    countTags bl (t :: q) =
      (if tagInList bl t then 1 else 0) + countTags bl q := by
  by_cases h : tagInList bl t = true
  · simp [countTags, List.filter_cons, h]
    omega
  · simp only [Bool.not_eq_true] at h
    simp [countTags, List.filter_cons, h]

theorem overlap_not_bl {cfg : HCfg} (hd : overlapB cfg = false) {s : String}
    (hs : cfg.requiredBlacklist.contains s = true) : cfg.blacklist.contains s = false := by
  simp only [overlapB, List.any_eq_false] at hd
  have := hd s (by simpa using hs)
  simpa using this

/-- One handler call preserves the parser invariant: each counter equals
the number of validation-queue entries whose (lowercased) tag name lies in
the corresponding blacklist, and the produced pieces balance-check to the
stack of queue entries whose start tags were emitted. -/
theorem hstep_inv (cfg : HCfg) (st st' : HState) (e : HEvent)
    (hd : overlapB cfg = false) (hwf : wfEvent e = true)
    (h1 : st.inDangerous = (countTags cfg.blacklist st.validationQueue : Int))
    (h2 : st.inDangerousButRequired =
      (countTags cfg.requiredBlacklist st.validationQueue : Int))
    (h3 : runNest st.textrepr [] = some (emittedStack cfg st.validationQueue))
    (hst : hstep cfg st e = .ok st') :
    st'.inDangerous = (countTags cfg.blacklist st'.validationQueue : Int) ∧
    st'.inDangerousButRequired =
      (countTags cfg.requiredBlacklist st'.validationQueue : Int) ∧
    runNest st'.textrepr [] = some (emittedStack cfg st'.validationQueue) := by
  cases e with
  | start tag orig =>
    simp only [hstep] at hst
    injection hst with hst
    subst hst
    simp only [wfEvent] at hwf
    have htag : tag = pyLower (tagFromText orig) := by simpa using hwf
    have hcbl := countTags_cons cfg.blacklist orig st.validationQueue
    have hcreq := countTags_cons cfg.requiredBlacklist orig st.validationQueue
    rw [show tagInList cfg.blacklist orig = cfg.blacklist.contains tag from by
      simp only [tagInList, htag]] at hcbl
    rw [show tagInList cfg.requiredBlacklist orig = cfg.requiredBlacklist.contains tag from by
      simp only [tagInList, htag]] at hcreq
    have g1 : st.inDangerous + (if cfg.blacklist.contains tag then 1 else 0) =
        (countTags cfg.blacklist (orig :: st.validationQueue) : Int) := by
      by_cases hb : cfg.blacklist.contains tag = true <;>
        simp only [hb, if_true, if_false] at hcbl ⊢ <;> rw [h1, hcbl] <;> push_cast <;> ring
    have g2 : st.inDangerousButRequired +
        (if cfg.requiredBlacklist.contains tag then 1 else 0) =
        (countTags cfg.requiredBlacklist (orig :: st.validationQueue) : Int) := by
      by_cases hr : cfg.requiredBlacklist.contains tag = true <;>
        simp only [hr, if_true, if_false] at hcreq ⊢ <;> rw [h2, hcreq] <;> push_cast <;> ring
    refine ⟨g1, g2, ?_⟩
    show runNest (if st.inDangerous + (if cfg.blacklist.contains tag then 1 else 0) = 0 ∧
        st.inDangerousButRequired +
          (if cfg.requiredBlacklist.contains tag then 1 else 0) ≤ 1 then
        st.textrepr ++ [.startT orig] else st.textrepr) [] =
      some (emittedStack cfg (orig :: st.validationQueue))
    rw [g1, g2]
    by_cases hnat : countTags cfg.blacklist (orig :: st.validationQueue) = 0 ∧
        countTags cfg.requiredBlacklist (orig :: st.validationQueue) ≤ 1
    · rw [if_pos ⟨by exact_mod_cast hnat.1, by exact_mod_cast hnat.2⟩]
      rw [runNest_append, h3]
      show runNest [OutTok.startT orig] (emittedStack cfg st.validationQueue) =
        some (emittedStack cfg (orig :: st.validationQueue))
      simp only [runNest, emittedStack]
      rw [if_pos hnat]
    · rw [if_neg (fun hcon => hnat ⟨by exact_mod_cast hcon.1, by exact_mod_cast hcon.2⟩)]
      rw [h3]
      simp only [emittedStack]
      rw [if_neg hnat]
  | stop tag =>
    simp only [hstep] at hst
    cases hq : st.validationQueue with
    | nil =>
      rw [hq] at hst
      simp at hst
    | cons prev rest =>
      rw [hq] at hst
      dsimp only at hst
      by_cases htag : tag ≠ pyLower (tagFromText prev)
      · rw [if_pos htag] at hst
        simp at hst
      · rw [if_neg htag] at hst
        injection hst with hst
        subst hst
        push_neg at htag
        rw [hq] at h1 h2 h3
        have hcbl := countTags_cons cfg.blacklist prev rest
        have hcreq := countTags_cons cfg.requiredBlacklist prev rest
        rw [show tagInList cfg.blacklist prev = cfg.blacklist.contains tag from by
          simp only [tagInList, htag]] at hcbl
        rw [show tagInList cfg.requiredBlacklist prev = cfg.requiredBlacklist.contains tag from by
          simp only [tagInList, htag]] at hcreq
        have g2 : (if cfg.requiredBlacklist.contains tag then
            st.inDangerousButRequired - 1 else st.inDangerousButRequired) =
            (countTags cfg.requiredBlacklist rest : Int) := by
          by_cases hr : cfg.requiredBlacklist.contains tag = true <;>
            simp only [hr, if_true, if_false] at hcreq ⊢ <;>
            rw [h2, hcreq] <;> push_cast <;> ring
        have g1 : (if !cfg.requiredBlacklist.contains tag && cfg.blacklist.contains tag then
            st.inDangerous - 1 else st.inDangerous) =
            (countTags cfg.blacklist rest : Int) := by
          by_cases hr : cfg.requiredBlacklist.contains tag = true
          · have hb : cfg.blacklist.contains tag = false := overlap_not_bl hd hr
            simp only [hr, hb, Bool.not_true, Bool.false_and, Bool.and_false, if_false] at hcbl ⊢
            rw [h1, hcbl]
            push_cast
            ring
          · have hrf : cfg.requiredBlacklist.contains tag = false := by simpa using hr
            by_cases hb : cfg.blacklist.contains tag = true <;>
              simp only [hrf, hb, Bool.not_false, Bool.true_and, if_true, if_false] at hcbl ⊢ <;>
              rw [h1, hcbl] <;> push_cast <;> ring
        refine ⟨g1, g2, ?_⟩
        show runNest (if st.inDangerous = 0 ∧ st.inDangerousButRequired ≤ 1 then
            st.textrepr ++ [.endT (tagFromText prev)] else st.textrepr) [] =
          some (emittedStack cfg rest)
        by_cases hnat : countTags cfg.blacklist (prev :: rest) = 0 ∧
            countTags cfg.requiredBlacklist (prev :: rest) ≤ 1
        · rw [if_pos (by
            rw [h1, h2]
            exact ⟨by exact_mod_cast hnat.1, by exact_mod_cast hnat.2⟩)]
          rw [runNest_append, h3]
          show runNest [OutTok.endT (tagFromText prev)]
            (emittedStack cfg (prev :: rest)) = some (emittedStack cfg rest)
          simp only [emittedStack]
          rw [if_pos hnat]
          simp only [runNest, beq_self_eq_true, if_true]
        · rw [if_neg (by
            rw [h1, h2]
            exact fun hcon => hnat ⟨by exact_mod_cast hcon.1, by exact_mod_cast hcon.2⟩)]
          rw [h3]
          simp only [emittedStack]
          rw [if_neg hnat]
  | text dat =>
    simp only [hstep] at hst
    split at hst
    · injection hst with hst
      subst hst
      refine ⟨h1, h2, ?_⟩
      show runNest (st.textrepr ++ [.dataT (htmlEscape dat)]) [] =
        some (emittedStack cfg st.validationQueue)
      rw [runNest_append, h3]
      rfl
    · injection hst with hst
      subst hst
      exact ⟨h1, h2, h3⟩
  | startend tag attrs orig =>
    simp only [hstep] at hst
    split at hst
    · split at hst
      · injection hst with hst
        subst hst
        exact ⟨h1, h2, h3⟩
      · split at hst
        · injection hst with hst
          subst hst
          refine ⟨h1, h2, ?_⟩
          show runNest (st.textrepr ++ [.selfT tag]) [] =
            some (emittedStack cfg st.validationQueue)
          rw [runNest_append, h3]
          rfl
        · injection hst with hst
          subst hst
          exact ⟨h1, h2, h3⟩
    · split at hst
      · injection hst with hst
        subst hst
        refine ⟨h1, h2, ?_⟩
        show runNest (st.textrepr ++ [.rawT orig]) [] =
          some (emittedStack cfg st.validationQueue)
        rw [runNest_append, h3]
        rfl
      · injection hst with hst
        subst hst
        exact ⟨h1, h2, h3⟩

theorem feedEvents_inv (cfg : HCfg) (hd : overlapB cfg = false) :
    ∀ (evs : List HEvent) (st st' : HState), evs.all wfEvent = true →
    st.inDangerous = (countTags cfg.blacklist st.validationQueue : Int) →
    st.inDangerousButRequired =
      (countTags cfg.requiredBlacklist st.validationQueue : Int) →
    runNest st.textrepr [] = some (emittedStack cfg st.validationQueue) →
    feedEvents cfg st evs = .ok st' →
    st'.inDangerous = (countTags cfg.blacklist st'.validationQueue : Int) ∧
    st'.inDangerousButRequired =
      (countTags cfg.requiredBlacklist st'.validationQueue : Int) ∧
    runNest st'.textrepr [] = some (emittedStack cfg st'.validationQueue) := by
  intro evs
  induction evs with
  | nil =>
    intro st st' _ p1 p2 p3 hf
    simp only [feedEvents] at hf
    injection hf with hf
    subst hf
    exact ⟨p1, p2, p3⟩
  | cons e rest ih =>
    intro st st' hwf p1 p2 p3 hf
    simp only [List.all_cons, Bool.and_eq_true] at hwf
    simp only [feedEvents] at hf
    split at hf
    · simp at hf
    · rename_i st2 heq
      obtain ⟨q1, q2, q3⟩ := hstep_inv cfg st st2 e hd hwf.1 p1 p2 p3 heq
      exact ih st2 st' hwf.2 q1 q2 q3 hf

/-- C9: throughout any run of the streaming sanitizer constructed with
(disjoint, as `__init__` validates) blacklists that raises no error, the
two counters `in_dangerous_but_required_tag` and `in_dangerous_tag` stay
non-negative: each equals the number of currently open tags from its set,
being incremented exactly on such a start tag and decremented on the
matching end tag. -/
theorem c9_counters_nonneg (cfg : HCfg) (evs : List HEvent) (st0 st : HState)
    (hinit : hparserInit cfg = .ok st0) (hwf : evs.all wfEvent = true)
    (hfeed : feedEvents cfg st0 evs = .ok st) :
    0 ≤ st.inDangerousButRequired ∧ 0 ≤ st.inDangerous := by
  have hd : overlapB cfg = false := by
    by_contra hcon
    simp only [Bool.not_eq_false] at hcon
    simp [hparserInit, hcon] at hinit
  have hst0 : st0 = initState := by
    simp only [hparserInit, hd, Bool.false_eq_true, if_false] at hinit
    injection hinit with hinit
    exact hinit.symm
  subst hst0
  obtain ⟨q1, q2, _⟩ := feedEvents_inv cfg hd evs initState st hwf rfl rfl rfl hfeed
  exact ⟨by rw [q2]; exact_mod_cast Nat.zero_le _,
    by rw [q1]; exact_mod_cast Nat.zero_le _⟩

/-- C1: for any disjoint blacklist configuration and any event stream,
when construction and feeding raise no structural error, producing the
state `st`, and `remove_all` on that state succeeds, the sequence of
pieces the handlers actually appended to the output buffer —
`st.textrepr`, the pieces themselves, not merely some rendering-equal
sequence — is validly nested: every appended start piece is closed by an
appended end piece with exactly the name the sanitizer synthesizes from
that start piece's raw text, in properly nested order, with data and
self-closing pieces neutral; and the written output renders exactly those
pieces. -/
theorem c1_roundtrip_wellnested (cfg : HCfg) (evs : List HEvent) (st : HState)
    (out : String) (hwf : evs.all wfEvent = true)
    (hparse : runParse cfg evs = .ok st)
    (hout : removeAllHtml st = .ok out) :
    wellNested st.textrepr = true ∧ out = renderOut st.textrepr := by
  unfold runParse at hparse
  split at hparse
  · simp at hparse
  · rename_i st0 heq0
    have hd : overlapB cfg = false := by
      by_contra hcon
      simp only [Bool.not_eq_false] at hcon
      simp [hparserInit, hcon] at heq0
    have hst0 : st0 = initState := by
      simp only [hparserInit, hd, Bool.false_eq_true, if_false] at heq0
      injection heq0 with heq0
      exact heq0.symm
    subst hst0
    obtain ⟨_, _, q3⟩ := feedEvents_inv cfg hd evs initState st hwf rfl rfl rfl hparse
    unfold removeAllHtml at hout
    split at hout
    · rename_i hempty
      have hqnil : st.validationQueue = [] := by
        cases hqq : st.validationQueue with
        | nil => rfl
        | cons a b => rw [hqq] at hempty; simp at hempty
      rw [hqnil] at q3
      injection hout with hout
      refine ⟨?_, hout.symm⟩
      simp only [wellNested, q3, emittedStack]
      rfl
    · simp at hout

/-- Witness for `c1_roundtrip_wellnested`: feeding `<b>` then `</b>` with
the `HTMLParser` configuration appends exactly the pieces
`[startT "<b>", endT "b"]`, which are well nested, and writes their
rendering `<b></b>`. -/
theorem c1_witness :
    ([HEvent.start "b" "<b>", HEvent.stop "b"].all wfEvent = true) ∧
    wellNested (HState.mk [.startT "<b>", .endT "b"] [] [] 0 0).textrepr = true ∧
    "<b></b>" = renderOut (HState.mk [.startT "<b>", .endT "b"] [] [] 0 0).textrepr :=
  ⟨rfl, c1_roundtrip_wellnested htmlCfg [HEvent.start "b" "<b>", HEvent.stop "b"]
    (HState.mk [.startT "<b>", .endT "b"] [] [] 0 0) "<b></b>" rfl rfl rfl⟩

/-- Witness for `c9_counters_nonneg` on `<p>hi</p>`. -/
theorem c9_witness :
    hparserInit htmlCfg = .ok initState ∧
    ([HEvent.start "p" "<p>", HEvent.text "hi", HEvent.stop "p"].all wfEvent = true) ∧
    (0 ≤ (HState.mk [.startT "<p>", .dataT "hi", .endT "p"] [] [] 0 0).inDangerousButRequired ∧
     0 ≤ (HState.mk [.startT "<p>", .dataT "hi", .endT "p"] [] [] 0 0).inDangerous) :=
  ⟨rfl, rfl, c9_counters_nonneg htmlCfg
    [HEvent.start "p" "<p>", HEvent.text "hi", HEvent.stop "p"] initState
    (HState.mk [.startT "<p>", .dataT "hi", .endT "p"] [] [] 0 0) rfl rfl rfl⟩
